import Mathlib

/-!
# Verification of the horse-maze enclosure core

Shallow embedding of the `horse_maze` package (`types.py`, `grid.py`,
`verify.py`, `parser.py`, the decode step of `solver.py`) and proofs of the
behavioural claims about it.

Conventions of the embedding:

* Python `Tuple[int, int]` coordinates become `Int × Int`.
* Python sets of coordinates become `List Coord` used with membership /
  set-equality semantics (the code only ever tests membership, emptiness and
  set equality on them).
* Python dicts become association lists with first-match lookup; insertion
  mirrors `setdefault` / assignment (assignment overwrites in place, fresh
  keys are appended), which reproduces dict iteration order.
* The two BFS `while` loops of `verify.py` are embedded with an explicit fuel
  parameter.  The fuel `fuelFor p` is provably sufficient for every puzzle
  (each loop iteration either dequeues without enqueuing, or marks at least
  one fresh coordinate out of a fixed finite universe), so the fuelled
  functions compute exactly the Python fixpoints.
* Grid accesses `p.grid[r][c]` in the Python code only ever happen at
  in-bounds coordinates on parser-produced puzzles; the total function
  `cellAt` returns a neutral `defaultCell` outside the grid.
* `a, b = coords` unpacking of a portal entry (which would raise if a portal
  label did not map to exactly two coordinates — ruled out by the parser's
  `_validate_portals`) is embedded as a pattern match that skips malformed
  entries.
-/

namespace HorseMaze

deriving instance DecidableEq for Except

/-- `Coord = Tuple[int, int]` (row, column) from `types.py`. -/
abbrev Coord := Int × Int

/-- `Cell` dataclass from `types.py`. -/
structure Cell where
  token : String
  kind : String
  value : Int
  portal_id : Option String := none
deriving DecidableEq

/-- `Puzzle` dataclass from `types.py`. -/
structure Puzzle where
  rows : Int
  cols : Int
  max_blocks : Int
  grid : List (List Cell)
  horse : Coord
  portals : List (String × List Coord)
deriving DecidableEq

/-- `Solution` dataclass from `types.py`.  The two coordinate sets are lists
with set semantics. -/
structure Solution where
  feasible : Bool
  max_score : Int
  blocks : List Coord
  reachable : List Coord
deriving DecidableEq

/-- Neutral cell returned for out-of-grid accesses (never reached by the
embedded code on in-bounds coordinates, see module comment). -/
def defaultCell : Cell := { token := "", kind := "", value := 0 }

/-- `p.grid[r][c]`: grid access at a coordinate. -/
def cellAt (p : Puzzle) (rc : Coord) : Cell :=
  if 0 ≤ rc.1 ∧ rc.1 < p.rows ∧ 0 ≤ rc.2 ∧ rc.2 < p.cols then
    (p.grid.getD rc.1.toNat []).getD rc.2.toNat defaultCell
  else defaultCell

/-! ## grid.py -/

/-- `grid.in_bounds`. -/
def in_bounds (p : Puzzle) (r c : Int) : Bool :=
  decide (0 ≤ r) && decide (r < p.rows) && decide (0 ≤ c) && decide (c < p.cols)

/-- `grid.is_boundary`. -/
def is_boundary (p : Puzzle) (rc : Coord) : Bool :=
  rc.1 == 0 || rc.1 == p.rows - 1 || rc.2 == 0 || rc.2 == p.cols - 1

/-- `grid.neighbors_4`: the four orthogonal neighbours, filtered in bounds. -/
def neighbors_4 (p : Puzzle) (rc : Coord) : List Coord :=
  [(rc.1 - 1, rc.2), (rc.1 + 1, rc.2), (rc.1, rc.2 - 1), (rc.1, rc.2 + 1)].filter
    (fun v => in_bounds p v.1 v.2)

/-- Association-list model of `Dict[Coord, List[Coord]]`. -/
abbrev Adj := List (Coord × List Coord)

/-- Dict lookup with default `[]` (`adj[rc]` after a `setdefault(rc, [])`). -/
def alookupD (adj : Adj) (k : Coord) : List Coord :=
  ((adj.find? (fun e => e.1 == k)).map (fun e => e.2)).getD []

/-- `adj.setdefault(k, []).append(x)`: append `x` to the list at key `k`,
creating the key at the end if absent (Python dict insertion order). -/
def appendAt (adj : Adj) (k : Coord) (x : Coord) : Adj :=
  if adj.any (fun e => e.1 == k) then
    adj.map (fun e => if e.1 == k then (e.1, e.2 ++ [x]) else e)
  else adj ++ [(k, [x])]

/-- Row-major enumeration of all in-bounds coordinates
(`for r in range(p.rows): for c in range(p.cols)`). -/
def allCoords (p : Puzzle) : List Coord :=
  (List.range p.rows.toNat).flatMap
    (fun r => (List.range p.cols.toNat).map (fun c => (Int.ofNat r, Int.ofNat c)))

/-- The grid-adjacency phase of `grid.build_adjacency`: every non-wall
coordinate maps to its non-wall 4-neighbours. -/
def baseAdj (p : Puzzle) : Adj :=
  (allCoords p).filterMap (fun rc =>
    if (cellAt p rc).kind == "wall" then none
    else some (rc, (neighbors_4 p rc).filter (fun nb => !((cellAt p nb).kind == "wall"))))

/-- `grid.build_adjacency`: grid adjacency among non-wall cells plus a portal
edge in both directions for each portal pair. -/
def build_adjacency (p : Puzzle) : Adj :=
  p.portals.foldl
    (fun adj e =>
      match e.2 with
      | [a, b] => appendAt (appendAt adj a b) b a
      | _ => adj)
    (baseAdj p)

/-! ## verify.py -/

/-- Dict write `d[k] = v` (overwrite in place, fresh keys appended). -/
def pupdate (d : List (Coord × Coord)) (k v : Coord) : List (Coord × Coord) :=
  if d.any (fun e => e.1 == k) then
    d.map (fun e => if e.1 == k then (k, v) else e)
  else d ++ [(k, v)]

/-- `verify._build_portal_pair`: for each portal entry `[a, b]` record
`a ↦ b` and `b ↦ a`. -/
def build_portal_pair (p : Puzzle) : List (Coord × Coord) :=
  p.portals.foldl
    (fun d e =>
      match e.2 with
      | [a, b] => pupdate (pupdate d a b) b a
      | _ => d)
    []

/-- `portal_pair.get(u)`. -/
def portalPair (p : Puzzle) (u : Coord) : Option Coord :=
  ((build_portal_pair p).find? (fun e => e.1 == u)).map (fun e => e.2)

/-- The local `passable` predicate of `compute_reachable` / `find_escape_path`:
not a wall and not a member of the blocked set. -/
def passable (p : Puzzle) (blocks : List Coord) (rc : Coord) : Bool :=
  !((cellAt p rc).kind == "wall") && !(blocks.contains rc)

/-- The candidate successors the BFS body tries from `u`, in program order:
the four in-bounds neighbours, then — when `u`'s cell is a portal — its
paired coordinate (if any). -/
def succCands (p : Puzzle) (u : Coord) : List Coord :=
  neighbors_4 p u ++
    (if (cellAt p u).kind == "portal" then
      (match portalPair p u with
       | some v => [v]
       | none => [])
     else [])

/-- One dequeue step of `compute_reachable`'s BFS body: try every candidate
successor of `u` in order, marking and enqueuing the passable unseen ones. -/
def expand (p : Puzzle) (blocks : List Coord) (u : Coord)
    (seen q : List Coord) : List Coord × List Coord :=
  (succCands p u).foldl
    (fun sq v =>
      if passable p blocks v && !(sq.1.contains v) then (sq.1 ++ [v], sq.2 ++ [v]) else sq)
    (seen, q)

/-- The fuelled `while q:` loop of `compute_reachable`. -/
def bfsAux (p : Puzzle) (blocks : List Coord) : Nat → List Coord → List Coord → List Coord
  | _, [], seen => seen
  | 0, _ :: _, seen => seen
  | fuel + 1, u :: q, seen =>
      let sq := expand p blocks u seen q
      bfsAux p blocks fuel sq.2 sq.1

/-- A finite universe every coordinate the two BFS loops can ever enqueue
belongs to: the in-bounds coordinates plus all portal coordinates. -/
def uniAll (p : Puzzle) : List Coord :=
  allCoords p ++ p.portals.flatMap (fun e => e.2)

/-- Sufficient fuel for both BFS loops on puzzle `p` (proved below). -/
def fuelFor (p : Puzzle) : Nat := (uniAll p).length + 1

/-- `verify.compute_reachable`: BFS from the horse respecting `blocks`;
returns the seen set in discovery order. -/
def compute_reachable (p : Puzzle) (blocks : List Coord) : List Coord :=
  bfsAux p blocks (fuelFor p) [p.horse] [p.horse]

/-- `verify.score_region`: sum of the cell values over a region. -/
def score_region (p : Puzzle) (region : List Coord) : Int :=
  (region.map (fun rc => (cellAt p rc).value)).sum

/-- Lookup `prev[u]` in the predecessor map of `find_escape_path` (`none` =
key absent, `some none` = the start's recorded predecessor `None`). -/
def plookup (prev : List (Coord × Option Coord)) (u : Coord) : Option (Option Coord) :=
  (prev.find? (fun e => e.1 == u)).map (fun e => e.2)

/-- The `while cur is not None` reconstruction loop of `find_escape_path`,
fuelled: follow predecessor links from `u` back to the start. -/
def chainBack (prev : List (Coord × Option Coord)) : Nat → Coord → List Coord
  | 0, _ => []
  | n + 1, u =>
      u :: (match plookup prev u with
            | some (some v) => chainBack prev n v
            | _ => [])

/-- Path reconstruction of `find_escape_path` (append the chain, then
reverse); `prev.length + 1` fuel always suffices to reach the root. -/
def reconstructPath (prev : List (Coord × Option Coord)) (u : Coord) : List Coord :=
  (chainBack prev (prev.length + 1) u).reverse

/-- One dequeue step of `find_escape_path`'s BFS body: record predecessors of
the passable, not-yet-recorded candidate successors of `u` and enqueue them. -/
def expandE (p : Puzzle) (blocks : List Coord) (u : Coord)
    (prev : List (Coord × Option Coord)) (q : List Coord) :
    List (Coord × Option Coord) × List Coord :=
  (succCands p u).foldl
    (fun pq v =>
      if passable p blocks v && !(pq.1.any (fun e => e.1 == v)) then
        (pq.1 ++ [(v, some u)], pq.2 ++ [v])
      else pq)
    (prev, q)

/-- The fuelled `while q:` loop of `find_escape_path`. -/
def escAux (p : Puzzle) (blocks : List Coord) :
    Nat → List Coord → List (Coord × Option Coord) → Option (List Coord)
  | _, [], _ => none
  | 0, _ :: _, _ => none
  | fuel + 1, u :: q, prev =>
      if is_boundary p u && passable p blocks u then some (reconstructPath prev u)
      else
        let pq := expandE p blocks u prev q
        escAux p blocks fuel pq.2 pq.1

/-- `verify.find_escape_path`: BFS with predecessor map; returns one shortest
horse-to-boundary path, or `none`. -/
def find_escape_path (p : Puzzle) (blocks : List Coord) : Option (List Coord) :=
  escAux p blocks (fuelFor p) [p.horse] [(p.horse, none)]

/-- The accepting report of `verify.verify_solution`. -/
def okMsg : String := "OK: solution is valid (enclosed) and score matches simulation."

/-- The non-fatal warning report of `verify.verify_solution`. -/
def warnMsg : String :=
  "WARNING: solver.reachable differs from computed reachability (enclosure/score still ok)."

/-- Python `repr` of a coordinate tuple, used in the escape-path diagnostic. -/
def coordRepr (rc : Coord) : String :=
  "(" ++ toString rc.1 ++ ", " ++ toString rc.2 ++ ")"

/-- Python `repr` of a list of coordinate tuples. -/
def pathRepr (l : List Coord) : String :=
  "[" ++ String.intercalate ", " (l.map coordRepr) ++ "]"

/-- Python `==` on two coordinate sets (here: lists with set semantics). -/
def setEq (a b : List Coord) : Bool :=
  a.all (fun x => b.contains x) && b.all (fun x => a.contains x)

/-- `verify.verify_solution`: block legality, recomputed reachability,
boundary-escape check, score check, reachable-set cross-check. -/
def verify_solution (p : Puzzle) (sol : Solution) : String :=
  match sol.blocks.find? (fun rc => !((cellAt p rc).kind == "air")) with
  | some rc =>
      "INVALID: block placed on non-air at (" ++ toString rc.1 ++ "," ++ toString rc.2
        ++ ") token=" ++ (cellAt p rc).token
  | none =>
      let region := compute_reachable p sol.blocks
      let escapes := region.filter (fun rc => is_boundary p rc)
      if !escapes.isEmpty then
        match find_escape_path p sol.blocks with
        | some path => "INVALID: horse can escape; example path: " ++ pathRepr path
        | none => "INVALID: horse can reach boundary cell(s)."
      else
        let computed_score := score_region p region
        if computed_score != sol.max_score then
          "INVALID: score mismatch. solver=" ++ toString sol.max_score ++ ", computed="
            ++ toString computed_score
        else if !sol.reachable.isEmpty && !(setEq sol.reachable region) then
          warnMsg
        else
          okMsg

/-! ## parser.py (compact format) -/

/-- `parser._PORTAL_ID_CHARS` (as its character list; membership tests are
the only use). -/
def PORTAL_ID_CHARS : List Char :=
  "0123456789abcdefghijklmnopqrstuvwxyzABCDEFGHIJKLMNOPQRSTUVWXYZ".toList

/-- `parser._is_portal_token`. -/
def is_portal_token (tok : String) : Bool :=
  tok.length == 2 && ((tok.toList.getD 0 ' ') == 'P')
    && PORTAL_ID_CHARS.contains (tok.toList.getD 1 ' ')

/-- `parser._cell_from_token` (failure = Python `ValueError`). -/
def cell_from_token (tok : String) : Except String Cell :=
  if tok == "W" || tok == "~" then .ok { token := "W", kind := "wall", value := 0 }
  else if tok == "B" then .ok { token := "B", kind := "wall", value := 0 }
  else if tok == "." || tok == "AIR" || tok == "_" then
    .ok { token := ".", kind := "air", value := 1 }
  else if tok == "H" then .ok { token := "H", kind := "horse", value := 1 }
  else if tok == "C" then .ok { token := "C", kind := "item", value := 3 }
  else if tok == "A" then .ok { token := "A", kind := "item", value := 10 }
  else if tok == "E" || tok == "BEE" || tok == "Bee" then
    .ok { token := "E", kind := "item", value := -5 }
  else if is_portal_token tok then
    .ok { token := tok, kind := "portal", value := 1
        , portal_id := some (String.singleton (tok.toList.getD 1 ' ')) }
  else .error ("Invalid token: " ++ tok)

/-- `parser._compact_char_to_token`. -/
def compact_char_to_token (ch : Char) : Except String String :=
  if ch == '~' then .ok "W"
  else if ch == '.' then .ok "."
  else if ch == 'W' || ch == 'H' || ch == 'A' || ch == 'C' || ch == 'E' || ch == 'B' then
    .ok (String.singleton ch)
  else if PORTAL_ID_CHARS.contains ch then .ok ("P" ++ String.singleton ch)
  else .error ("Invalid compact character: " ++ String.singleton ch)

/-- `portals.setdefault(pid, []).append(rc)`. -/
def portalsAdd (ps : List (String × List Coord)) (pid : String) (rc : Coord) :
    List (String × List Coord) :=
  if ps.any (fun e => e.1 == pid) then
    ps.map (fun e => if e.1 == pid then (e.1, e.2 ++ [rc]) else e)
  else ps ++ [(pid, [rc])]

/-- Inner loop of `_parse_compact` over one row's characters (column `c`
onward of row `r`): build the row's cells, tracking the horse and portals. -/
def scanRowCells : Int → Int → List Char → Option Coord → List (String × List Coord) →
    Except String (List Cell × Option Coord × List (String × List Coord))
  | _, _, [], horse, portals => .ok ([], horse, portals)
  | r, c, ch :: rest, horse, portals => do
      let tok ← compact_char_to_token ch
      let cell ← cell_from_token tok
      let horse' ←
        if cell.kind == "horse" then
          match horse with
          | some _ => Except.error "Multiple horses found."
          | none => Except.ok (some (r, c))
        else Except.ok horse
      let portals' :=
        if cell.kind == "portal" then portalsAdd portals (cell.portal_id.getD "") (r, c)
        else portals
      let out ← scanRowCells r (c + 1) rest horse' portals'
      .ok (cell :: out.1, out.2)

/-- Outer loop of `_parse_compact` over the grid rows (row `r` onward). -/
def scanRows : Int → List String → Option Coord → List (String × List Coord) →
    Except String (List (List Cell) × Option Coord × List (String × List Coord))
  | _, [], horse, portals => .ok ([], horse, portals)
  | r, line :: rest, horse, portals => do
      let row ← scanRowCells r 0 line.toList horse portals
      let out ← scanRows (r + 1) rest row.2.1 row.2.2
      .ok (row.1 :: out.1, out.2)

/-- `parser._validate_portals`: every portal label appears exactly twice. -/
def validate_portals (ps : List (String × List Coord)) : Except String Unit :=
  match ps.find? (fun e => !(e.2.length == 2)) with
  | some e =>
      .error ("Portal P" ++ e.1 ++ " must appear exactly twice; found "
        ++ toString e.2.length ++ ".")
  | none => .ok ()

/-- Strip leading and trailing whitespace (Python `str.strip`). -/
def trimChars (cs : List Char) : List Char :=
  ((cs.dropWhile Char.isWhitespace).reverse.dropWhile Char.isWhitespace).reverse

/-- The `re.match(r"^\s*\d+\s*$", line)` test of `_parse_compact`. -/
def isIntLine (s : String) : Bool :=
  !(trimChars s.toList).isEmpty && (trimChars s.toList).all Char.isDigit

/-- Python `int(...)` on a stripped digits-only string. -/
def parseNatDigits (s : String) : Nat :=
  (trimChars s.toList).foldl (fun n c => n * 10 + (c.toNat - '0'.toNat)) 0

/-- `parser._parse_compact`: max_blocks line, rectangular character grid,
exactly one horse, every portal label exactly twice.  (The rectangularity
error message is abbreviated; which error is raised is unchanged.) -/
def parse_compact (lines : List String) : Except String Puzzle :=
  match lines with
  | [] => .error "Compact format requires max_blocks on the first line."
  | l0 :: grid_lines =>
      if isIntLine l0 then
        let max_blocks : Int := (parseNatDigits l0 : Nat)
        if grid_lines.isEmpty then .error "Missing compact grid lines after max_blocks."
        else
          let rows := grid_lines.length
          let cols := (grid_lines.headD "").length
          match grid_lines.find? (fun ln => !(ln.length == cols)) with
          | some _ => .error "Compact grid must be rectangular."
          | none => do
              let scanned ← scanRows 0 grid_lines none []
              match scanned.2.1 with
              | none => Except.error "No horse (H) found."
              | some h => do
                  let _ ← validate_portals scanned.2.2
                  .ok { rows := (rows : Int), cols := (cols : Int), max_blocks := max_blocks
                      , grid := scanned.1, horse := h, portals := scanned.2.2 }
      else .error "Compact format requires max_blocks on the first line."

/-! ## solver.py: decoding the solver's assignment (lines 130–141) -/

/-- The node universe of `solve_optimal`: the keys of `build_adjacency`
(`nodes = sorted(adj.keys())`; sorting does not change which coordinates are
decoded, so the enumeration order is kept). -/
def adjNodes (p : Puzzle) : List Coord := (build_adjacency p).map (fun e => e.1)

/-- The read-back loop of `solve_optimal` (lines 130–141): given the boolean
assignment reported by the external solver for the `r` and `b` variables and
the reported objective value, build the `Solution`; a coordinate enters
`blocks` only if its cell kind is `"air"` and its `b` variable is 1. -/
def decode_solution (p : Puzzle) (rA bA : Coord → Bool) (obj : Int) : Solution :=
  { feasible := true
  , max_score := obj
  , blocks := (adjNodes p).filter (fun rc => ((cellAt p rc).kind == "air") && bA rc)
  , reachable := (adjNodes p).filter rA }

/-! ## Specification-side definitions (from the claims' wording) -/

/-- One move of the Reachability Engine, as the spec words it: a
4-directional in-bounds step, or — from a portal cell — a teleport to its
paired coordinate; the entered coordinate must be passable (non-wall and not
blocked). -/
def MoveStep (p : Puzzle) (blocks : List Coord) (u v : Coord) : Prop :=
  (v ∈ neighbors_4 p u ∨ ((cellAt p u).kind = "portal" ∧ portalPair p u = some v)) ∧
    passable p blocks v = true

/-- Connected to the horse by finitely many moves. -/
inductive Reaches (p : Puzzle) (blocks : List Coord) : Coord → Prop
  | start : Reaches p blocks p.horse
  | step {u v : Coord} : Reaches p blocks u → MoveStep p blocks u v → Reaches p blocks v

/-- Reachable from the horse in at most `n` moves. -/
def ReachN (p : Puzzle) (blocks : List Coord) : Nat → Coord → Prop
  | 0, v => v = p.horse
  | n + 1, v => ReachN p blocks n v ∨ ∃ u, ReachN p blocks n u ∧ MoveStep p blocks u v

/-- `l` is a move-path from the horse to `v`. -/
def PathTo (p : Puzzle) (blocks : List Coord) (v : Coord) (l : List Coord) : Prop :=
  l.head? = some p.horse ∧ List.Chain' (MoveStep p blocks) l ∧ l.getLast? = some v

/-- `l` is an escape path: a move-path from the horse to a boundary,
non-wall, non-blocked coordinate. -/
def IsEscapePath (p : Puzzle) (blocks : List Coord) (l : List Coord) : Prop :=
  l.head? = some p.horse ∧ List.Chain' (MoveStep p blocks) l ∧
    ∃ w, l.getLast? = some w ∧ is_boundary p w = true ∧ passable p blocks w = true

/-- The portal teleport edges, one pair of directed edges per portal entry. -/
def portalWrites (p : Puzzle) : List (Coord × Coord) :=
  p.portals.flatMap (fun e =>
    match e.2 with
    | [a, b] => [(a, b), (b, a)]
    | _ => [])

/-- A portal entry is well formed: exactly two in-bounds coordinates whose
cells are of kind `"portal"`. -/
def portalEntryOK (p : Puzzle) (e : String × List Coord) : Bool :=
  match e.2 with
  | [a, b] =>
      in_bounds p a.1 a.2 && in_bounds p b.1 b.2 &&
        ((cellAt p a).kind == "portal") && ((cellAt p b).kind == "portal")
  | _ => false

/-- The portal invariants the parser guarantees on every `Puzzle` it
produces: each entry is a well-formed pair and no coordinate carries two
portal labels. -/
def PortalsWF (p : Puzzle) : Prop :=
  (∀ e ∈ p.portals, portalEntryOK p e = true) ∧
    (p.portals.flatMap (fun e => e.2)).Nodup

/-- The edge relation of the adjacency mapping: `v ∈ adj[u]`. -/
def AdjEdge (p : Puzzle) (u v : Coord) : Prop := v ∈ alookupD (build_adjacency p) u

/-- All air-kind coordinates of the grid. -/
def airCells (p : Puzzle) : List Coord :=
  (allCoords p).filter (fun rc => (cellAt p rc).kind == "air")

/-- A block set encloses the horse: the recomputed region touches no
boundary coordinate. -/
def enclosed (p : Puzzle) (B : List Coord) : Bool :=
  (compute_reachable p B).all (fun rc => !(is_boundary p rc))

/-- All block sets (sets of air coordinates) within budget `k` that enclose
the horse. -/
def enclosureCandidates (p : Puzzle) (k : Nat) : List (List Coord) :=
  (airCells p).sublists.filter (fun B => decide (B.length ≤ k) && enclosed p B)

/-- The ground-truth optimal enclosure score at budget `k`, as claim C6
defines it: the maximum over all enclosing block sets within budget of the
score of the recomputed region (`none` when no block set encloses). -/
def bestScore (p : Puzzle) (k : Nat) : Option Int :=
  ((enclosureCandidates p k).map (fun B => score_region p (compute_reachable p B))).max?

/-! ## Concrete puzzles used by witnesses and counterexamples -/

/-- Wall cell as produced by the parser for token `W`. -/
def wallC : Cell := { token := "W", kind := "wall", value := 0 }

/-- Air cell as produced by the parser for token `.`. -/
def airC : Cell := { token := ".", kind := "air", value := 1 }

/-- Horse cell as produced by the parser for token `H`. -/
def horseC : Cell := { token := "H", kind := "horse", value := 1 }

/-- Portal cell with label `l`. -/
def portC (l : String) : Cell :=
  { token := "P" ++ l, kind := "portal", value := 1, portal_id := some l }

/-- 3×3 puzzle, horse enclosed by walls. -/
def pzClosed : Puzzle :=
  { rows := 3, cols := 3, max_blocks := 0
  , grid := [[wallC, wallC, wallC], [wallC, horseC, wallC], [wallC, wallC, wallC]]
  , horse := (1, 1), portals := [] }

/-- 3×3 puzzle, horse in the middle of open air. -/
def pzOpen : Puzzle :=
  { rows := 3, cols := 3, max_blocks := 0
  , grid := [[airC, airC, airC], [airC, horseC, airC], [airC, airC, airC]]
  , horse := (1, 1), portals := [] }

/-- 4×3 puzzle with a portal pair at (0,1) and (2,1) and the horse between
them. -/
def pzPortal : Puzzle :=
  { rows := 4, cols := 3, max_blocks := 0
  , grid := [[wallC, portC "0", wallC], [wallC, horseC, wallC]
            , [wallC, portC "0", wallC], [wallC, wallC, wallC]]
  , horse := (1, 1), portals := [("0", [(0, 1), (2, 1)])] }

/-- The Puzzle that the compact input `["0", "H~", "~~"]` parses to: the
horse sits at (0,0), on the grid boundary. -/
def pzBoundaryHorse : Puzzle :=
  { rows := 2, cols := 2, max_blocks := 0
  , grid := [[horseC, wallC], [wallC, wallC]]
  , horse := (0, 0), portals := [] }

/-! ## Proof-side measures and invariants -/

/-- Loop measure for `compute_reachable`'s BFS: unvisited universe
coordinates plus queue length. -/
def muB (p : Puzzle) (q seen : List Coord) : Nat :=
  ((uniAll p).filter (fun x => decide (¬ x ∈ seen))).length + q.length

/-- Loop measure for `find_escape_path`'s BFS: universe coordinates not yet
in the predecessor map, plus queue length. -/
def muE (p : Puzzle) (q : List Coord) (prev : List (Coord × Option Coord)) : Nat :=
  ((uniAll p).filter (fun x => decide (¬ x ∈ prev.map (fun e => e.1)))).length + q.length

/-- The portal-edge phase of `build_adjacency`, as a fold step. -/
def portalStep (adj : Adj) (e : String × List Coord) : Adj :=
  match e.2 with
  | [a, b] => appendAt (appendAt adj a b) b a
  | _ => adj

/-- Invariant of `find_escape_path`'s predecessor map: keys are distinct,
the horse is the root, every other key has a recorded predecessor one move
away, and the ghost depth `D` is the exact BFS distance from the horse. -/
structure GoodPrev (p : Puzzle) (blocks : List Coord)
    (prev : List (Coord × Option Coord)) (D : Coord → Nat) : Prop where
  nodupKeys : (prev.map (fun e => e.1)).Nodup
  horse_mem : p.horse ∈ prev.map (fun e => e.1)
  horse_lookup : plookup prev p.horse = some none
  horse_D : D p.horse = 0
  parent : ∀ v ∈ prev.map (fun e => e.1), v ≠ p.horse →
    ∃ u, plookup prev v = some (some u) ∧ u ∈ prev.map (fun e => e.1) ∧
      MoveStep p blocks u v ∧ D v = D u + 1
  reachD : ∀ v ∈ prev.map (fun e => e.1), ReachN p blocks (D v) v
  optD : ∀ v ∈ prev.map (fun e => e.1), ∀ m, ReachN p blocks m v → D v ≤ m
  depth_lt : ∀ v ∈ prev.map (fun e => e.1), D v < prev.length

/-- Full loop invariant of `find_escape_path`: the queue splits into a
depth-`d` segment `qa` followed by a depth-`d+1` segment `qb`, every
coordinate within distance `d` has been recorded, and every processed
(recorded, dequeued) coordinate has been expanded and was not an escape. -/
structure EscInv (p : Puzzle) (blocks : List Coord) (qa qb : List Coord)
    (prev : List (Coord × Option Coord)) (D : Coord → Nat) (d : Nat)
    extends GoodPrev p blocks prev D : Prop where
  qa_mem : ∀ v ∈ qa, v ∈ prev.map (fun e => e.1) ∧ D v = d
  qb_mem : ∀ v ∈ qb, v ∈ prev.map (fun e => e.1) ∧ D v = d + 1
  covered : ∀ m ≤ d, ∀ w, ReachN p blocks m w → w ∈ prev.map (fun e => e.1)
  closedP : ∀ u ∈ prev.map (fun e => e.1), u ∉ qa → u ∉ qb →
    ∀ v, MoveStep p blocks u v → v ∈ prev.map (fun e => e.1)
  noEscP : ∀ u ∈ prev.map (fun e => e.1), u ∉ qa → u ∉ qb →
    ¬(is_boundary p u = true ∧ passable p blocks u = true)

/-- What `find_escape_path` is supposed to return: `none` exactly when no
boundary, non-wall, non-blocked coordinate is reachable; otherwise a
shortest escape path. -/
def EscPost (p : Puzzle) (blocks : List Coord) : Option (List Coord) → Prop
  | none => ∀ w, Reaches p blocks w →
      ¬(is_boundary p w = true ∧ passable p blocks w = true)
  | some l => IsEscapePath p blocks l ∧
      ∀ l', IsEscapePath p blocks l' → l.length ≤ l'.length

/-! ## General lemmas about the embedding's containers -/

theorem contains_true_iff {l : List Coord} {x : Coord} : l.contains x = true ↔ x ∈ l := by
  simp [List.contains]

theorem contains_false_iff {l : List Coord} {x : Coord} : l.contains x = false ↔ x ∉ l := by
  rw [← Bool.not_eq_true, contains_true_iff]

theorem anyKey_iff {prev : List (Coord × Option Coord)} {v : Coord} :
    prev.any (fun e => e.1 == v) = true ↔ v ∈ prev.map (fun e => e.1) := by
  simp only [List.any_eq_true, List.mem_map, beq_iff_eq]

theorem mem_allCoords (p : Puzzle) (rc : Coord) :
    rc ∈ allCoords p ↔ 0 ≤ rc.1 ∧ rc.1 < p.rows ∧ 0 ≤ rc.2 ∧ rc.2 < p.cols := by
  cases rc with
  | mk x y =>
    unfold allCoords
    rw [List.mem_flatMap]
    constructor
    · rintro ⟨r, hr, hmem⟩
      rw [List.mem_map] at hmem
      obtain ⟨c, hc, h⟩ := hmem
      rw [List.mem_range] at hr hc
      injection h with hx hy
      subst hx; subst hy
      simp only [Int.ofNat_eq_coe]
      refine ⟨by omega, by omega, by omega, by omega⟩
    · rintro ⟨h1, h2, h3, h4⟩
      refine ⟨x.toNat, by rw [List.mem_range]; omega, ?_⟩
      rw [List.mem_map]
      refine ⟨y.toNat, by rw [List.mem_range]; omega, ?_⟩
      show (Int.ofNat x.toNat, Int.ofNat y.toNat) = (x, y)
      simp only [Int.ofNat_eq_coe]
      rw [Int.toNat_of_nonneg h1, Int.toNat_of_nonneg h3]

theorem in_bounds_iff {p : Puzzle} {r c : Int} :
    in_bounds p r c = true ↔ 0 ≤ r ∧ r < p.rows ∧ 0 ≤ c ∧ c < p.cols := by
  simp [in_bounds, and_assoc]

theorem neighbors_4_mem_allCoords {p : Puzzle} {u v : Coord} (h : v ∈ neighbors_4 p u) :
    v ∈ allCoords p := by
  rw [neighbors_4, List.mem_filter] at h
  exact (mem_allCoords p v).mpr (in_bounds_iff.mp h.2)

theorem pupdate_mem {d : List (Coord × Coord)} {k v : Coord} :
    ∀ e ∈ pupdate d k v, e ∈ d ∨ e = (k, v) := by
  intro e he
  unfold pupdate at he
  split at he
  · rw [List.mem_map] at he
    obtain ⟨e₀, he₀, heq⟩ := he
    by_cases hk : (e₀.1 == k) = true
    · right; rw [if_pos hk] at heq; exact heq.symm
    · left; rw [if_neg hk] at heq; exact heq ▸ he₀
  · rcases List.mem_append.mp he with h | h
    · exact Or.inl h
    · right; simpa using h

theorem portal_fold_mem (S : List Coord) :
    ∀ (l : List (String × List Coord)) (init : List (Coord × Coord)),
      (∀ e ∈ init, e.1 ∈ S ∧ e.2 ∈ S) →
      (∀ en ∈ l, ∀ a b, en.2 = [a, b] → a ∈ S ∧ b ∈ S) →
      ∀ e ∈ l.foldl
        (fun d en =>
          match en.2 with
          | [a, b] => pupdate (pupdate d a b) b a
          | _ => d) init,
        e.1 ∈ S ∧ e.2 ∈ S := by
  intro l
  induction l with
  | nil => intro init hinit _ e he; exact hinit e he
  | cons en l ih =>
    intro init hinit hl e he
    rw [List.foldl_cons] at he
    refine ih _ ?_ (fun x hx => hl x (List.mem_cons_of_mem _ hx)) e he
    intro e' he'
    match hcase : en.2 with
    | [a, b] =>
      rw [hcase] at he'
      obtain ⟨ha, hb⟩ := hl en (List.mem_cons_self _ _) a b hcase
      rcases pupdate_mem e' he' with h1 | h1
      · rcases pupdate_mem e' h1 with h2 | h2
        · exact hinit e' h2
        · rw [h2]; exact ⟨ha, hb⟩
      · rw [h1]; exact ⟨hb, ha⟩
    | [] => rw [hcase] at he'; exact hinit e' he'
    | [a] => rw [hcase] at he'; exact hinit e' he'
    | a :: b :: c :: t => rw [hcase] at he'; exact hinit e' he'

theorem build_portal_pair_mem {p : Puzzle} :
    ∀ e ∈ build_portal_pair p, e.1 ∈ uniAll p ∧ e.2 ∈ uniAll p := by
  refine portal_fold_mem (uniAll p) p.portals [] (by simp) ?_
  intro en hen a b hab
  constructor <;>
  · refine List.mem_append.mpr (Or.inr ?_)
    exact List.mem_flatMap.mpr ⟨en, hen, by rw [hab]; simp⟩

theorem portalPair_mem_uni {p : Puzzle} {u v : Coord} (h : portalPair p u = some v) :
    v ∈ uniAll p := by
  unfold portalPair at h
  cases hf : (build_portal_pair p).find? (fun e => e.1 == u) with
  | none => rw [hf] at h; simp at h
  | some e =>
    rw [hf] at h
    simp only [Option.map_some', Option.some.injEq] at h
    have := (build_portal_pair_mem e (List.mem_of_find?_eq_some hf)).2
    rw [h] at this; exact this

theorem succCands_sub_uni {p : Puzzle} {u v : Coord} (h : v ∈ succCands p u) :
    v ∈ uniAll p := by
  unfold succCands at h
  rcases List.mem_append.mp h with h | h
  · exact List.mem_append.mpr (Or.inl (neighbors_4_mem_allCoords h))
  · split at h
    · cases hp : portalPair p u with
      | none => rw [hp] at h; simp at h
      | some w =>
        rw [hp] at h
        simp only [List.mem_singleton] at h
        exact h ▸ portalPair_mem_uni hp
    · simp at h

theorem moveStep_iff {p : Puzzle} {blocks : List Coord} {u v : Coord} :
    MoveStep p blocks u v ↔ v ∈ succCands p u ∧ passable p blocks v = true := by
  unfold MoveStep succCands
  constructor
  · rintro ⟨h, hp⟩
    refine ⟨List.mem_append.mpr ?_, hp⟩
    rcases h with h | ⟨hk, hpp⟩
    · exact Or.inl h
    · right
      rw [if_pos (by simp [hk]), hpp]
      simp
  · rintro ⟨h, hp⟩
    refine ⟨?_, hp⟩
    rcases List.mem_append.mp h with h | h
    · exact Or.inl h
    · split at h
      · rename_i hk
        cases hpp : portalPair p u with
        | none => rw [hpp] at h; simp at h
        | some w =>
          rw [hpp] at h
          simp only [List.mem_singleton] at h
          subst h
          exact Or.inr ⟨by simpa using hk, rfl⟩
      · simp at h

/-! ## The BFS expansion step -/

theorem expand_fold (p : Puzzle) (blocks : List Coord) :
    ∀ (cands s q : List Coord),
      ∃ new : List Coord,
        cands.foldl
          (fun sq v =>
            if passable p blocks v && !(sq.1.contains v) then (sq.1 ++ [v], sq.2 ++ [v])
            else sq) (s, q) = (s ++ new, q ++ new) ∧
        new.Nodup ∧
        (∀ w ∈ new, w ∈ cands ∧ passable p blocks w = true ∧ w ∉ s) ∧
        (∀ w ∈ cands, passable p blocks w = true → w ∈ s ∨ w ∈ new) := by
  intro cands
  induction cands with
  | nil => intro s q; exact ⟨[], by simp, List.nodup_nil, by simp, by simp⟩
  | cons c cs ih =>
    intro s q
    rw [List.foldl_cons]
    by_cases hpass : passable p blocks c = true
    case neg =>
      rw [if_neg (by simp [hpass])]
      obtain ⟨new', h1, h2, h3, h4⟩ := ih s q
      refine ⟨new', h1, h2,
        fun w hw => ⟨List.mem_cons_of_mem _ (h3 w hw).1, (h3 w hw).2⟩, ?_⟩
      intro w hw hpw
      rcases List.mem_cons.mp hw with rfl | hw
      · exact absurd hpw hpass
      · exact h4 w hw hpw
    by_cases hcm : c ∈ s
    case neg =>
      rw [if_pos (by rw [Bool.and_eq_true]
                     exact ⟨hpass, by rw [Bool.not_eq_eq_eq_not]; simpa using contains_false_iff.mpr hcm⟩)]
      have hcs : c ∉ s := hcm
      obtain ⟨new', h1, h2, h3, h4⟩ := ih (s ++ [c]) (q ++ [c])
      refine ⟨c :: new', ?_, ?_, ?_, ?_⟩
      · rw [h1, List.append_cons s c new', List.append_cons q c new']
      · refine List.nodup_cons.mpr ⟨?_, h2⟩
        intro hmem
        exact (h3 c hmem).2.2 (List.mem_append.mpr (Or.inr (by simp)))
      · intro w hw
        rcases List.mem_cons.mp hw with rfl | hw
        · exact ⟨List.mem_cons_self _ _, hpass, hcs⟩
        · obtain ⟨hw1, hw2, hw3⟩ := h3 w hw
          exact ⟨List.mem_cons_of_mem _ hw1, hw2, fun hmem => hw3 (List.mem_append.mpr (Or.inl hmem))⟩
      · intro w hw hpw
        rcases List.mem_cons.mp hw with rfl | hw
        · exact Or.inr (List.mem_cons_self _ _)
        · rcases h4 w hw hpw with h | h
          · rcases List.mem_append.mp h with h | h
            · exact Or.inl h
            · exact Or.inr (by simp at h; simp [h])
          · exact Or.inr (List.mem_cons_of_mem _ h)
    case pos =>
      rw [if_neg (by simp; exact fun _ => hcm)]
      obtain ⟨new', h1, h2, h3, h4⟩ := ih s q
      refine ⟨new', h1, h2,
        fun w hw => ⟨List.mem_cons_of_mem _ (h3 w hw).1, (h3 w hw).2⟩, ?_⟩
      intro w hw hpw
      rcases List.mem_cons.mp hw with rfl | hw
      · exact Or.inl hcm
      · exact h4 w hw hpw

theorem expand_spec (p : Puzzle) (blocks : List Coord) (u : Coord) (seen q : List Coord) :
    ∃ new : List Coord,
      expand p blocks u seen q = (seen ++ new, q ++ new) ∧
      new.Nodup ∧
      (∀ w ∈ new, MoveStep p blocks u w ∧ w ∉ seen ∧ w ∈ uniAll p) ∧
      (∀ w, MoveStep p blocks u w → w ∈ seen ∨ w ∈ new) := by
  obtain ⟨new, h1, h2, h3, h4⟩ := expand_fold p blocks (succCands p u) seen q
  refine ⟨new, h1, h2, ?_, ?_⟩
  · intro w hw
    obtain ⟨hw1, hw2, hw3⟩ := h3 w hw
    exact ⟨moveStep_iff.mpr ⟨hw1, hw2⟩, hw3, succCands_sub_uni hw1⟩
  · intro w hw
    obtain ⟨hw1, hw2⟩ := moveStep_iff.mp hw
    exact h4 w hw1 hw2

/-! ## Termination measure for the BFS loops -/

theorem filter_drop_one {uni S : List Coord} {w : Coord} (hwu : w ∈ uni) (hws : w ∉ S) :
    (uni.filter (fun x => decide (¬ x ∈ S ++ [w]))).length + 1 ≤
      (uni.filter (fun x => decide (¬ x ∈ S))).length := by
  have hsplit : uni.filter (fun x => decide (¬ x ∈ S ++ [w]))
      = (uni.filter (fun x => decide (¬ x ∈ S))).filter (fun x => decide (¬ x = w)) := by
    rw [List.filter_filter]
    refine List.filter_congr ?_
    intro x _
    by_cases h1 : x ∈ S <;> by_cases h2 : x = w <;>
      simp [List.mem_append, h1, h2]
  rw [hsplit]
  have hw' : w ∈ uni.filter (fun x => decide (¬ x ∈ S)) :=
    List.mem_filter.mpr ⟨hwu, by simpa using hws⟩
  have : ((uni.filter (fun x => decide (¬ x ∈ S))).filter (fun x => decide (¬ x = w))).length
      < (uni.filter (fun x => decide (¬ x ∈ S))).length := by
    rw [List.length_filter_lt_length_iff_exists]
    exact ⟨w, hw', by simp⟩
  omega

theorem mu_drop (uni : List Coord) :
    ∀ (new S : List Coord), new.Nodup → (∀ w ∈ new, w ∈ uni ∧ w ∉ S) →
      (uni.filter (fun x => decide (¬ x ∈ S ++ new))).length + new.length ≤
        (uni.filter (fun x => decide (¬ x ∈ S))).length := by
  intro new
  induction new with
  | nil => intro S _ _; simp
  | cons w new' ih =>
    intro S hnd hmem
    have hstep := filter_drop_one (S := S) (hmem w (List.mem_cons_self _ _)).1
      (hmem w (List.mem_cons_self _ _)).2
    have hrec := ih (S ++ [w]) (List.nodup_cons.mp hnd).2 ?_
    · have hlist : S ++ w :: new' = (S ++ [w]) ++ new' := by
        rw [List.append_cons]
      rw [hlist]
      calc (uni.filter (fun x => decide (¬ x ∈ (S ++ [w]) ++ new'))).length + (w :: new').length
          = ((uni.filter (fun x => decide (¬ x ∈ (S ++ [w]) ++ new'))).length + new'.length) + 1 := by
            simp [List.length_cons]; omega
        _ ≤ (uni.filter (fun x => decide (¬ x ∈ S ++ [w]))).length + 1 := by omega
        _ ≤ (uni.filter (fun x => decide (¬ x ∈ S))).length := hstep
    · intro x hx
      refine ⟨(hmem x (List.mem_cons_of_mem _ hx)).1, ?_⟩
      intro hmem'
      rcases List.mem_append.mp hmem' with h | h
      · exact (hmem x (List.mem_cons_of_mem _ hx)).2 h
      · simp only [List.mem_singleton] at h
        exact (List.nodup_cons.mp hnd).1 (h ▸ hx)

/-! ## Correctness of `compute_reachable` (the BFS of `verify.py`) -/

theorem closed_complete {p : Puzzle} {blocks : List Coord} {S : List Coord}
    (hhorse : p.horse ∈ S)
    (hclosed : ∀ u ∈ S, ∀ v, MoveStep p blocks u v → v ∈ S) :
    ∀ v, Reaches p blocks v → v ∈ S := by
  intro v hv
  induction hv with
  | start => exact hhorse
  | step _ hmv ih => exact hclosed _ ih _ hmv

theorem bfsAux_spec (p : Puzzle) (blocks : List Coord) :
    ∀ (fuel : Nat) (q seen : List Coord),
      (∀ v ∈ q, v ∈ seen) →
      seen.Nodup →
      (∀ v ∈ seen, Reaches p blocks v) →
      (∀ u ∈ seen, u ∉ q → ∀ v, MoveStep p blocks u v → v ∈ seen) →
      p.horse ∈ seen →
      muB p q seen ≤ fuel →
      ∀ v, v ∈ bfsAux p blocks fuel q seen ↔ Reaches p blocks v := by
  intro fuel
  induction fuel with
  | zero =>
    intro q seen hq hnd hsound hclosed hhorse hmu v
    have hqnil : q = [] := by
      have := hmu
      unfold muB at this
      cases q with
      | nil => rfl
      | cons a l => simp [List.length_cons] at this
    subst hqnil
    show v ∈ bfsAux p blocks 0 [] seen ↔ _
    unfold bfsAux
    constructor
    · exact hsound v
    · exact fun h => closed_complete hhorse (fun u hu => hclosed u hu (by simp)) v h
  | succ fuel ih =>
    intro q seen hq hnd hsound hclosed hhorse hmu v
    cases q with
    | nil =>
      show v ∈ bfsAux p blocks (fuel + 1) [] seen ↔ _
      unfold bfsAux
      constructor
      · exact hsound v
      · exact fun h => closed_complete hhorse (fun u hu => hclosed u hu (by simp)) v h
    | cons u q' =>
      obtain ⟨new, h1, h2, h3, h4⟩ := expand_spec p blocks u seen q'
      show v ∈ bfsAux p blocks (fuel + 1) (u :: q') seen ↔ _
      unfold bfsAux
      rw [h1]
      have hu_seen : u ∈ seen := hq u (List.mem_cons_self _ _)
      have hnew_fresh : ∀ w ∈ new, w ∉ seen := fun w hw => (h3 w hw).2.1
      refine ih (q' ++ new) (seen ++ new) ?_ ?_ ?_ ?_ ?_ ?_ v
      · intro x hx
        rcases List.mem_append.mp hx with h | h
        · exact List.mem_append.mpr (Or.inl (hq x (List.mem_cons_of_mem _ h)))
        · exact List.mem_append.mpr (Or.inr h)
      · exact List.nodup_append.mpr ⟨hnd, h2, fun a ha hb => hnew_fresh a hb ha⟩
      · intro x hx
        rcases List.mem_append.mp hx with h | h
        · exact hsound x h
        · exact Reaches.step (hsound u hu_seen) (h3 x h).1
      · intro x hx hxq w hw
        rcases List.mem_append.mp hx with h | h
        · by_cases hxu : x = u
          · subst hxu
            rcases h4 w hw with hws | hwn
            · exact List.mem_append.mpr (Or.inl hws)
            · exact List.mem_append.mpr (Or.inr hwn)
          · have hxold : x ∉ u :: q' := by
              intro hmem
              rcases List.mem_cons.mp hmem with h' | h'
              · exact hxu h'
              · exact hxq (List.mem_append.mpr (Or.inl h'))
            exact List.mem_append.mpr (Or.inl (hclosed x h hxold w hw))
        · exact absurd (List.mem_append.mpr (Or.inr h)) hxq
      · exact List.mem_append.mpr (Or.inl hhorse)
      · have hdrop := mu_drop (uniAll p) new seen h2
          (fun w hw => ⟨(h3 w hw).2.2, (h3 w hw).2.1⟩)
        unfold muB at hmu ⊢
        simp only [List.length_append, List.length_cons] at hmu ⊢
        omega

/-- C1: `compute_reachable(puzzle, blocks)` returns exactly the set of
coordinates connected to the horse's coordinate by finitely many moves,
where each move is a 4-directional in-bounds step or, from a portal cell, a
teleport to its paired coordinate, and every coordinate entered by a move is
non-wall and not blocked. -/
theorem compute_reachable_correct (p : Puzzle) (blocks : List Coord) :
    ∀ v, v ∈ compute_reachable p blocks ↔ Reaches p blocks v := by
  refine bfsAux_spec p blocks (fuelFor p) [p.horse] [p.horse]
    (by simp) (by simp) ?_ ?_ (by simp) ?_
  · intro v hv
    simp only [List.mem_singleton] at hv
    exact hv ▸ Reaches.start
  · intro u hu huq
    simp only [List.mem_singleton] at hu
    exact absurd (by simp [hu]) huq
  · unfold muB fuelFor
    have := List.length_filter_le (fun x => decide (¬ x ∈ [p.horse])) (uniAll p)
    simp only [List.length_cons, List.length_nil] at *
    omega

/-- C9: the set returned by `compute_reachable` always contains the horse's
coordinate — even when the horse is blocked or walled in, the start is
unconditionally included. -/
theorem compute_reachable_contains_horse (p : Puzzle) (blocks : List Coord) :
    p.horse ∈ compute_reachable p blocks := by
  exact (bfsAux_spec p blocks (fuelFor p) [p.horse] [p.horse]
    (by simp) (by simp)
    (fun v hv => by simp only [List.mem_singleton] at hv; exact hv ▸ Reaches.start)
    (fun u hu huq => by
      simp only [List.mem_singleton] at hu
      exact absurd (by simp [hu]) huq)
    (by simp)
    (by
      unfold muB fuelFor
      have := List.length_filter_le (fun x => decide (¬ x ∈ [p.horse])) (uniAll p)
      simp only [List.length_cons, List.length_nil] at *
      omega)
    p.horse).mpr Reaches.start

/-! ## The adjacency structure (`grid.build_adjacency`) -/

theorem alookupD_cons_eq {e : Coord × List Coord} {d : Adj} {k : Coord}
    (h : e.1 = k) : alookupD (e :: d) k = e.2 := by
  unfold alookupD
  have hb : (e.1 == k) = true := by simp [h]
  rw [List.find?_cons]
  simp only [hb]
  rfl

theorem alookupD_cons_ne {e : Coord × List Coord} {d : Adj} {k : Coord}
    (h : ¬ e.1 = k) : alookupD (e :: d) k = alookupD d k := by
  unfold alookupD
  have hb : (e.1 == k) = false := by simp [h]
  rw [List.find?_cons]
  simp only [hb]

theorem alookupD_map_ne {k x k' : Coord} (hkk : ¬ k = k') :
    ∀ d : Adj,
      alookupD (d.map (fun e => if e.1 == k then (e.1, e.2 ++ [x]) else e)) k'
        = alookupD d k' := by
  intro d
  induction d with
  | nil => rfl
  | cons e d ih =>
    rw [List.map_cons]
    by_cases he : e.1 = k
    · have hb : (e.1 == k) = true := by simp [he]
      rw [if_pos hb]
      have hne : ¬ e.1 = k' := by rw [he]; exact hkk
      rw [alookupD_cons_ne (e := (e.1, e.2 ++ [x])) hne, alookupD_cons_ne hne, ih]
    · have hb : ¬ (e.1 == k) = true := by simp [he]
      rw [if_neg hb]
      by_cases he' : e.1 = k'
      · rw [alookupD_cons_eq he', alookupD_cons_eq he']
      · rw [alookupD_cons_ne he', alookupD_cons_ne he', ih]

theorem alookupD_appendAt : ∀ (d : Adj) (k x k' : Coord),
    alookupD (appendAt d k x) k'
      = if k' = k then alookupD d k' ++ [x] else alookupD d k' := by
  intro d
  induction d with
  | nil =>
    intro k x k'
    unfold appendAt
    rw [if_neg (by simp)]
    by_cases h : k' = k
    · subst h
      rw [if_pos rfl, List.nil_append, alookupD_cons_eq rfl]
      rfl
    · rw [if_neg h, List.nil_append,
        alookupD_cons_ne (fun hc => h hc.symm)]
  | cons e d ih =>
    intro k x k'
    unfold appendAt
    by_cases hek : e.1 = k
    · have hany : ((e :: d).any (fun e => e.1 == k)) = true := by
        rw [List.any_cons]
        simp [hek]
      rw [if_pos hany, List.map_cons, if_pos (by simp [hek])]
      by_cases hkk' : k' = k
      · subst hkk'
        rw [alookupD_cons_eq (e := (e.1, e.2 ++ [x])) hek, if_pos rfl,
          alookupD_cons_eq hek]
      · have hek' : ¬ e.1 = k' := by rw [hek]; exact fun hc => hkk' hc.symm
        rw [alookupD_cons_ne (e := (e.1, e.2 ++ [x])) hek', if_neg hkk',
          alookupD_cons_ne hek', alookupD_map_ne (fun hc => hkk' hc.symm) d]
    · by_cases hany : (d.any (fun e => e.1 == k)) = true
      · have hany' : ((e :: d).any (fun e => e.1 == k)) = true := by
          rw [List.any_cons, hany]
          simp
        rw [if_pos hany', List.map_cons, if_neg (by simp [hek])]
        have hmap : d.map (fun e => if e.1 == k then (e.1, e.2 ++ [x]) else e)
            = appendAt d k x := by
          unfold appendAt
          rw [if_pos hany]
        by_cases hek' : e.1 = k'
        · have hkk' : ¬ k' = k := by rw [← hek']; exact hek
          rw [alookupD_cons_eq hek', if_neg hkk', alookupD_cons_eq hek']
        · rw [alookupD_cons_ne hek', hmap, ih, alookupD_cons_ne hek']
      · have hany' : ¬ ((e :: d).any (fun e => e.1 == k)) = true := by
          rw [List.any_cons]
          simp [hek, hany]
        rw [if_neg hany', List.cons_append]
        have happ : d ++ [(k, [x])] = appendAt d k x := by
          unfold appendAt
          rw [if_neg hany]
        by_cases hek' : e.1 = k'
        · have hkk' : ¬ k' = k := by rw [← hek']; exact hek
          rw [alookupD_cons_eq hek', if_neg hkk', alookupD_cons_eq hek']
        · rw [alookupD_cons_ne hek', happ, ih, alookupD_cons_ne hek']

theorem appendAt_mem_mono {d : Adj} {k k₂ x y : Coord} (h : x ∈ alookupD d k) :
    x ∈ alookupD (appendAt d k₂ y) k := by
  rw [alookupD_appendAt]
  by_cases hk : k = k₂
  · rw [if_pos hk]; exact List.mem_append.mpr (Or.inl h)
  · rw [if_neg hk]; exact h

theorem appendAt_mem_self (d : Adj) (k x : Coord) : x ∈ alookupD (appendAt d k x) k := by
  rw [alookupD_appendAt, if_pos rfl]
  exact List.mem_append.mpr (Or.inr (by simp))

theorem build_adjacency_eq_fold (p : Puzzle) :
    build_adjacency p = p.portals.foldl portalStep (baseAdj p) := rfl

theorem portal_fold_mem_mono {x k : Coord} :
    ∀ (l : List (String × List Coord)) (init : Adj),
      x ∈ alookupD init k → x ∈ alookupD (l.foldl portalStep init) k := by
  intro l
  induction l with
  | nil => intro init h; exact h
  | cons en l ih =>
    intro init h
    rw [List.foldl_cons]
    refine ih _ ?_
    unfold portalStep
    match hcase : en.2 with
    | [a, b] => exact appendAt_mem_mono (appendAt_mem_mono h)
    | [] => exact h
    | [a] => exact h
    | a :: b :: c :: t => exact h

theorem portal_fold_establishes {ℓ : String} {a b : Coord} :
    ∀ (l : List (String × List Coord)) (init : Adj), (ℓ, [a, b]) ∈ l →
      b ∈ alookupD (l.foldl portalStep init) a ∧
        a ∈ alookupD (l.foldl portalStep init) b := by
  intro l
  induction l with
  | nil => intro init h; exact absurd h (List.not_mem_nil _)
  | cons en l ih =>
    intro init h
    rw [List.foldl_cons]
    rcases List.mem_cons.mp h with rfl | h
    · constructor
      · refine portal_fold_mem_mono l _ ?_
        show b ∈ alookupD (portalStep init (ℓ, [a, b])) a
        unfold portalStep
        exact appendAt_mem_mono (appendAt_mem_self init a b)
      · refine portal_fold_mem_mono l _ ?_
        show a ∈ alookupD (portalStep init (ℓ, [a, b])) b
        unfold portalStep
        exact appendAt_mem_self _ b a
    · exact ih _ h

/-- C7: for every portal label, its two coordinates are mutual neighbours in
the adjacency mapping built by `build_adjacency`, in both directions. -/
theorem portal_pairs_mutual_adjacent (p : Puzzle) (ℓ : String) (a b : Coord)
    (h : (ℓ, [a, b]) ∈ p.portals) :
    b ∈ alookupD (build_adjacency p) a ∧ a ∈ alookupD (build_adjacency p) b := by
  rw [build_adjacency_eq_fold]
  exact portal_fold_establishes p.portals (baseAdj p) h

/-- Witness for C7 on a concrete puzzle with one portal pair. -/
theorem portal_pairs_mutual_adjacent_witness :
    (2, 1) ∈ alookupD (build_adjacency pzPortal) (0, 1) ∧
      (0, 1) ∈ alookupD (build_adjacency pzPortal) (2, 1) :=
  portal_pairs_mutual_adjacent pzPortal "0" (0, 1) (2, 1) (by decide)

/-! ## Decoding the solver assignment (`solve_optimal`, lines 130–141) -/

/-- C8: for every variable assignment read back from the solver, the decoded
Solution's block set contains only coordinates whose cell kind is "air". -/
theorem decode_solution_blocks_air (p : Puzzle) (rA bA : Coord → Bool) (obj : Int) :
    ((decode_solution p rA bA obj).blocks).all
      (fun rc => (cellAt p rc).kind == "air") = true := by
  rw [List.all_eq_true]
  intro rc hrc
  unfold decode_solution at hrc
  simp only at hrc
  exact (Bool.and_eq_true .. ▸ (List.mem_filter.mp hrc).2).1

/-! ## Monotonicity of the ground-truth optimum (C6) -/

theorem enclosureCandidates_mono {p : Puzzle} {k1 k2 : Nat} (h : k1 ≤ k2) :
    ∀ B ∈ enclosureCandidates p k1, B ∈ enclosureCandidates p k2 := by
  intro B hB
  unfold enclosureCandidates at hB ⊢
  obtain ⟨hmem, hcond⟩ := List.mem_filter.mp hB
  obtain ⟨hlen, hencl⟩ := Bool.and_eq_true .. ▸ hcond
  refine List.mem_filter.mpr ⟨hmem, ?_⟩
  rw [Bool.and_eq_true]
  exact ⟨by rw [decide_eq_true_eq] at hlen ⊢; omega, hencl⟩

theorem int_max?_spec {l : List Int} {a : Int} :
    l.max? = some a ↔ a ∈ l ∧ ∀ b ∈ l, b ≤ a :=
  @List.max?_eq_some_iff Int a _ _ ⟨fun h1 h2 => le_antisymm h1 h2⟩
    (fun x => le_refl x) (fun x y => max_choice x y) (fun _ _ _ => max_le_iff) l

/-- C6: the ground-truth optimal enclosure score is monotone in the block
budget: for k1 ≤ k2, any optimum attainable at budget k1 is matched or
exceeded at budget k2. -/
theorem bestScore_mono (p : Puzzle) (k1 k2 : Nat) (h12 : k1 ≤ k2) (s : Int)
    (hs : bestScore p k1 = some s) :
    ∃ t : Int, bestScore p k2 = some t ∧ s ≤ t := by
  unfold bestScore at hs
  obtain ⟨hmem, _⟩ := int_max?_spec.mp hs
  rw [List.mem_map] at hmem
  obtain ⟨B, hB, hscore⟩ := hmem
  have hB2 : B ∈ enclosureCandidates p k2 := enclosureCandidates_mono h12 B hB
  have hmem2 : s ∈ (enclosureCandidates p k2).map
      (fun B => score_region p (compute_reachable p B)) :=
    List.mem_map.mpr ⟨B, hB2, hscore⟩
  unfold bestScore
  cases hmax : ((enclosureCandidates p k2).map
      (fun B => score_region p (compute_reachable p B))).max? with
  | none =>
    rw [List.max?_eq_none_iff] at hmax
    rw [hmax] at hmem2
    exact absurd hmem2 (List.not_mem_nil s)
  | some t =>
    obtain ⟨_, hmax2⟩ := int_max?_spec.mp hmax
    exact ⟨t, rfl, hmax2 s hmem2⟩

/-- Witness for C6: on the enclosed 3×3 puzzle the optimum at budget 0 is 1,
and it is matched at budget 1. -/
theorem bestScore_mono_witness : ∃ t : Int, bestScore pzClosed 1 = some t ∧ 1 ≤ t :=
  bestScore_mono pzClosed 0 1 (by decide) 1 (by decide)

/-! ## The parser accepts a boundary horse (C4) -/

/-- C4 counterexample: a compact input whose grid places the horse on the
grid boundary parses successfully and produces a Puzzle — parsing performs
no horse-on-boundary rejection. -/
theorem parse_compact_accepts_boundary_horse :
    parse_compact ["0", "H~", "~~"] = Except.ok pzBoundaryHorse ∧
      is_boundary pzBoundaryHorse pzBoundaryHorse.horse = true := by
  constructor
  · decide
  · decide

/-- C4 amended: parsing checks tokens, rectangularity, horse uniqueness and
presence, and portal pairing, but places no restriction on the horse's
position: there are inputs with the horse on the grid boundary that parse
successfully into a Puzzle whose horse lies on the boundary. -/
theorem parse_compact_no_boundary_check :
    ∃ (lines : List String) (pz : Puzzle),
      parse_compact lines = Except.ok pz ∧ is_boundary pz pz.horse = true :=
  ⟨["0", "H~", "~~"], pzBoundaryHorse, by decide, by decide⟩

/-! ## The verification report (`verify.verify_solution`) -/

theorem head?_append_of_some {pre suf : String} {c : Char} (h : pre.data.head? = some c) :
    (pre ++ suf).data.head? = some c := by
  rw [String.data_append, List.head?_append, h]
  rfl

theorem str_ne_of_head {s t : String} {c d : Char} (hs : s.data.head? = some c)
    (ht : t.data.head? = some d) (hne : ¬ c = d) : ¬ s = t := by
  intro heq
  rw [heq, ht] at hs
  exact hne (Option.some.inj hs).symm

theorem okMsg_head : okMsg.data.head? = some 'O' := by decide

theorem warnMsg_head : warnMsg.data.head? = some 'W' := by decide

/-- The first characters of the three interpolated INVALID reports. -/
theorem invalid_block_head (t1 t2 t3 : String) :
    ("INVALID: block placed on non-air at (" ++ t1 ++ "," ++ t2 ++ ") token=" ++ t3).data.head?
      = some 'I' := by
  apply head?_append_of_some
  apply head?_append_of_some
  apply head?_append_of_some
  apply head?_append_of_some
  apply head?_append_of_some
  decide

theorem invalid_escape_head (t : String) :
    ("INVALID: horse can escape; example path: " ++ t).data.head? = some 'I' := by
  apply head?_append_of_some
  decide

theorem invalid_score_head (t1 t2 : String) :
    ("INVALID: score mismatch. solver=" ++ t1 ++ ", computed=" ++ t2).data.head? = some 'I' := by
  apply head?_append_of_some
  apply head?_append_of_some
  apply head?_append_of_some
  decide

/-- Full characterization of the accepting and warning reports of
`verify_solution`, shared by the proofs of C3 and C10. -/
theorem verify_spec (p : Puzzle) (sol : Solution) :
    (verify_solution p sol = okMsg ↔
      ((∀ rc ∈ sol.blocks, (cellAt p rc).kind = "air") ∧
       (∀ rc ∈ compute_reachable p sol.blocks, is_boundary p rc = false) ∧
       score_region p (compute_reachable p sol.blocks) = sol.max_score ∧
       (sol.reachable ≠ [] → setEq sol.reachable (compute_reachable p sol.blocks) = true))) ∧
    (verify_solution p sol = warnMsg ↔
      ((∀ rc ∈ sol.blocks, (cellAt p rc).kind = "air") ∧
       (∀ rc ∈ compute_reachable p sol.blocks, is_boundary p rc = false) ∧
       score_region p (compute_reachable p sol.blocks) = sol.max_score ∧
       sol.reachable ≠ [] ∧
       setEq sol.reachable (compute_reachable p sol.blocks) = false)) := by
  unfold verify_solution
  cases hfind : sol.blocks.find? (fun rc => !((cellAt p rc).kind == "air")) with
  | some rc =>
    have hbad : ¬ (cellAt p rc).kind = "air" := by
      have := List.find?_some hfind
      simpa using this
    have hmem : rc ∈ sol.blocks := List.mem_of_find?_eq_some hfind
    have hA : ¬ (∀ x ∈ sol.blocks, (cellAt p x).kind = "air") := fun hall =>
      hbad (hall rc hmem)
    constructor
    · exact iff_of_false
        (str_ne_of_head (invalid_block_head _ _ _) okMsg_head (by decide))
        (fun hc => hA hc.1)
    · exact iff_of_false
        (str_ne_of_head (invalid_block_head _ _ _) warnMsg_head (by decide))
        (fun hc => hA hc.1)
  | none =>
    have hA : ∀ x ∈ sol.blocks, (cellAt p x).kind = "air" := by
      intro x hx
      have := List.find?_eq_none.mp hfind x hx
      simpa using this
    simp only []
    cases hesc : (compute_reachable p sol.blocks).filter (fun rc => is_boundary p rc) with
    | cons e es =>
      have hB : ¬ (∀ rc ∈ compute_reachable p sol.blocks, is_boundary p rc = false) := by
        intro hall
        have he : e ∈ (compute_reachable p sol.blocks).filter (fun rc => is_boundary p rc) := by
          rw [hesc]; exact List.mem_cons_self _ _
        obtain ⟨hmem, hbd⟩ := List.mem_filter.mp he
        rw [hall e hmem] at hbd
        simp at hbd
      rw [if_pos (by simp)]
      cases hpath : find_escape_path p sol.blocks with
      | some path =>
        constructor
        · exact iff_of_false
            (str_ne_of_head (invalid_escape_head _) okMsg_head (by decide))
            (fun hc => hB hc.2.1)
        · exact iff_of_false
            (str_ne_of_head (invalid_escape_head _) warnMsg_head (by decide))
            (fun hc => hB hc.2.1)
      | none =>
        constructor
        · exact iff_of_false
            (str_ne_of_head (c := 'I')
              (s := "INVALID: horse can reach boundary cell(s).")
              (by decide) okMsg_head (by decide))
            (fun hc => hB hc.2.1)
        · exact iff_of_false
            (str_ne_of_head (c := 'I')
              (s := "INVALID: horse can reach boundary cell(s).")
              (by decide) warnMsg_head (by decide))
            (fun hc => hB hc.2.1)
    | nil =>
      have hB : ∀ rc ∈ compute_reachable p sol.blocks, is_boundary p rc = false := by
        intro rc hrc
        have := List.filter_eq_nil_iff.mp hesc rc hrc
        simpa using this
      rw [if_neg (by simp)]
      by_cases hscore :
          score_region p (compute_reachable p sol.blocks) = sol.max_score
      case neg =>
        rw [if_pos (by simp [bne_iff_ne]; exact hscore)]
        constructor
        · exact iff_of_false
            (str_ne_of_head (invalid_score_head _ _) okMsg_head (by decide))
            (fun hc => hscore hc.2.2.1)
        · exact iff_of_false
            (str_ne_of_head (invalid_score_head _ _) warnMsg_head (by decide))
            (fun hc => hscore hc.2.2.1)
      case pos =>
        rw [if_neg (by simp [bne_iff_ne]; exact hscore)]
        by_cases hwarn :
            (!sol.reachable.isEmpty &&
              !(setEq sol.reachable (compute_reachable p sol.blocks))) = true
        case pos =>
          rw [if_pos hwarn]
          rw [Bool.and_eq_true] at hwarn
          obtain ⟨hne0, hset0⟩ := hwarn
          rw [Bool.not_eq_eq_eq_not, Bool.not_true, List.isEmpty_eq_false] at hne0
          rw [Bool.not_eq_eq_eq_not, Bool.not_true] at hset0
          constructor
          · refine iff_of_false
              (str_ne_of_head warnMsg_head okMsg_head (by decide)) ?_
            intro hc
            rw [hc.2.2.2 hne0] at hset0
            simp at hset0
          · exact iff_of_true rfl ⟨hA, hB, hscore, hne0, hset0⟩
        case neg =>
          rw [if_neg hwarn]
          have hD : sol.reachable ≠ [] →
              setEq sol.reachable (compute_reachable p sol.blocks) = true := by
            intro hne
            by_contra hfalse
            rw [Bool.not_eq_true] at hfalse
            apply hwarn
            rw [Bool.and_eq_true]
            constructor
            · cases hre : sol.reachable with
              | nil => exact absurd hre hne
              | cons a l => rfl
            · rw [hfalse]
              rfl
          constructor
          · exact iff_of_true rfl ⟨hA, hB, hscore, hD⟩
          · refine iff_of_false
              (str_ne_of_head okMsg_head warnMsg_head (by decide)) ?_
            rintro ⟨_, _, _, hne, hset⟩
            rw [hD hne] at hset
            simp at hset

/-- C3: `verify_solution` returns the accepting "OK" report exactly when
every block lies on an air cell, the recomputed region touches no boundary
coordinate, its score equals the Solution's `max_score`, and the carried
reachable set (when present, i.e. non-empty) equals the recomputed region; a
disagreement only in the carried reachable set yields the non-fatal WARNING
report rather than a rejection. -/
theorem verify_solution_ok_iff (p : Puzzle) (sol : Solution) :
    (verify_solution p sol = okMsg ↔
      ((∀ rc ∈ sol.blocks, (cellAt p rc).kind = "air") ∧
       (∀ rc ∈ compute_reachable p sol.blocks, is_boundary p rc = false) ∧
       score_region p (compute_reachable p sol.blocks) = sol.max_score ∧
       (sol.reachable ≠ [] → setEq sol.reachable (compute_reachable p sol.blocks) = true))) ∧
    ((∀ rc ∈ sol.blocks, (cellAt p rc).kind = "air") →
     (∀ rc ∈ compute_reachable p sol.blocks, is_boundary p rc = false) →
     score_region p (compute_reachable p sol.blocks) = sol.max_score →
     sol.reachable ≠ [] →
     setEq sol.reachable (compute_reachable p sol.blocks) = false →
     verify_solution p sol = warnMsg) := by
  obtain ⟨hok, hwarn⟩ := verify_spec p sol
  exact ⟨hok, fun hA hB hC hne hset => hwarn.mpr ⟨hA, hB, hC, hne, hset⟩⟩

/-- Witness for C3: on the enclosed 3×3 puzzle, a Solution that is valid
except for a disagreeing non-empty carried reachable set gets the WARNING
report. -/
theorem verify_solution_ok_iff_witness :
    verify_solution pzClosed
      { feasible := true, max_score := 1, blocks := [], reachable := [(0, 0)] }
      = warnMsg :=
  (verify_solution_ok_iff pzClosed
    { feasible := true, max_score := 1, blocks := [], reachable := [(0, 0)] }).2
    (by decide) (by decide) (by decide) (by decide) (by decide)

/-- C10: a Solution whose carried reachable set is empty is treated as not
carrying one: `verify_solution` never returns the reachable-set-mismatch
warning for it, and accepts it with the "OK" report whenever block legality,
boundary exclusion, and score agreement hold. -/
theorem verify_solution_empty_reachable (p : Puzzle) (sol : Solution)
    (hempty : sol.reachable = []) :
    verify_solution p sol ≠ warnMsg ∧
    ((∀ rc ∈ sol.blocks, (cellAt p rc).kind = "air") →
     (∀ rc ∈ compute_reachable p sol.blocks, is_boundary p rc = false) →
     score_region p (compute_reachable p sol.blocks) = sol.max_score →
     verify_solution p sol = okMsg) := by
  obtain ⟨hok, hwarn⟩ := verify_spec p sol
  constructor
  · intro hc
    exact (hwarn.mp hc).2.2.2.1 hempty
  · intro hA hB hC
    exact hok.mpr ⟨hA, hB, hC, fun hne => absurd hempty hne⟩

/-- Witness for C10: the enclosed 3×3 puzzle with an empty-bookkeeping
Solution is accepted and not warned about. -/
theorem verify_solution_empty_reachable_witness :
    verify_solution pzClosed
        { feasible := true, max_score := 1, blocks := [], reachable := [] } ≠ warnMsg ∧
      verify_solution pzClosed
        { feasible := true, max_score := 1, blocks := [], reachable := [] } = okMsg := by
  obtain ⟨h1, h2⟩ := verify_solution_empty_reachable pzClosed
    { feasible := true, max_score := 1, blocks := [], reachable := [] } (by decide)
  exact ⟨h1, h2 (by decide) (by decide) (by decide)⟩

/-! ## Equivalence of the adjacency structure and the BFS edge relation (C5) -/

theorem allCoords_nodup (p : Puzzle) : (allCoords p).Nodup := by
  unfold allCoords
  rw [List.nodup_flatMap]
  constructor
  · intro r _
    refine (List.nodup_range _).map ?_
    intro a b hab
    injection hab with _ h2
    exact Int.ofNat.inj h2
  · rw [List.pairwise_iff_forall_sublist]
    intro r1 r2 hsub
    have hne : r1 ≠ r2 := by
      intro hc
      subst hc
      have hnd := hsub.nodup (List.nodup_range _)
      rw [List.nodup_cons] at hnd
      exact hnd.1 (by simp)
    intro x hx1 hx2
    rw [List.mem_map] at hx1 hx2
    obtain ⟨c1, _, h1⟩ := hx1
    obtain ⟨c2, _, h2⟩ := hx2
    rw [← h2] at h1
    injection h1 with ha _
    exact hne (Int.ofNat.inj ha)

theorem lookup_filterMap (g : Coord → List Coord) (w : Coord → Bool) :
    ∀ (l : List Coord), l.Nodup → ∀ u : Coord,
      alookupD (l.filterMap (fun rc => if w rc then none else some (rc, g rc))) u
        = if u ∈ l ∧ w u = false then g u else [] := by
  intro l
  induction l with
  | nil =>
    intro _ u
    rw [if_neg (by simp)]
    rfl
  | cons a l ih =>
    intro hnd u
    obtain ⟨hal, hl⟩ := List.nodup_cons.mp hnd
    by_cases hwa : w a = true
    · rw [List.filterMap_cons_none (by rw [if_pos hwa])]
      rw [ih hl u]
      by_cases hua : u = a
      · subst hua
        rw [if_neg (by intro hc; exact hal hc.1),
          if_neg (by intro hc; rw [hwa] at hc; exact absurd hc.2 (by decide))]
      · by_cases hcond : u ∈ l ∧ w u = false
        · rw [if_pos hcond, if_pos ⟨List.mem_cons_of_mem _ hcond.1, hcond.2⟩]
        · rw [if_neg hcond, if_neg (by
            intro hc
            exact hcond ⟨(List.mem_cons.mp hc.1).resolve_left hua, hc.2⟩)]
    · have hwa' : w a = false := Bool.not_eq_true _ ▸ hwa
      rw [List.filterMap_cons_some (by rw [if_neg hwa])]
      by_cases hua : u = a
      · subst hua
        rw [alookupD_cons_eq rfl, if_pos ⟨List.mem_cons_self _ _, hwa'⟩]
      · rw [alookupD_cons_ne (by simpa using fun hc => hua hc.symm), ih hl u]
        by_cases hcond : u ∈ l ∧ w u = false
        · rw [if_pos hcond, if_pos ⟨List.mem_cons_of_mem _ hcond.1, hcond.2⟩]
        · rw [if_neg hcond, if_neg (by
            intro hc
            exact hcond ⟨(List.mem_cons.mp hc.1).resolve_left hua, hc.2⟩)]

theorem alookupD_baseAdj (p : Puzzle) (u : Coord) :
    alookupD (baseAdj p) u =
      if u ∈ allCoords p ∧ ((cellAt p u).kind == "wall") = false then
        (neighbors_4 p u).filter (fun nb => !((cellAt p nb).kind == "wall"))
      else [] := by
  unfold baseAdj
  exact lookup_filterMap _ _ (allCoords p) (allCoords_nodup p) u

theorem mem_portal_fold_iff :
    ∀ (l : List (String × List Coord)) (init : Adj) (u v : Coord),
      v ∈ alookupD (l.foldl portalStep init) u ↔
        v ∈ alookupD init u ∨
          (u, v) ∈ l.flatMap (fun e =>
            match e.2 with
            | [a, b] => [(a, b), (b, a)]
            | _ => []) := by
  intro l
  induction l with
  | nil =>
    intro init u v
    simp
  | cons en l ih =>
    intro init u v
    rw [List.foldl_cons, ih, List.flatMap_cons, List.mem_append]
    have hstep : v ∈ alookupD (portalStep init en) u ↔
        v ∈ alookupD init u ∨
          (u, v) ∈ (match en.2 with
            | [a, b] => ([(a, b), (b, a)] : List (Coord × Coord))
            | _ => []) := by
      unfold portalStep
      match hcase : en.2 with
      | [] => simp
      | [a] => simp
      | a :: b :: c :: t => simp
      | [a, b] =>
        rw [alookupD_appendAt, alookupD_appendAt]
        have hmem : ((u, v) ∈ ([(a, b), (b, a)] : List (Coord × Coord))) ↔
            ((u = a ∧ v = b) ∨ (u = b ∧ v = a)) := by
          simp [Prod.ext_iff]
        rw [hmem]
        by_cases hua : u = a <;> by_cases hub : u = b
        · have hba : b = a := by rw [← hub, hua]
          simp [hua, hub, hba]
        · have hab : ¬ a = b := by rw [← hua]; exact hub
          simp [hua, hab]
        · have hba : ¬ b = a := by rw [← hub]; exact hua
          simp [hub, hba]
        · simp [hua, hub]
    rw [hstep]
    tauto

theorem mem_build_adjacency_iff (p : Puzzle) (u v : Coord) :
    v ∈ alookupD (build_adjacency p) u ↔
      v ∈ alookupD (baseAdj p) u ∨ (u, v) ∈ portalWrites p := by
  rw [build_adjacency_eq_fold]
  exact mem_portal_fold_iff p.portals (baseAdj p) u v

theorem pupdate_fresh {d : List (Coord × Coord)} {k v : Coord}
    (h : ∀ e ∈ d, e.1 ≠ k) : pupdate d k v = d ++ [(k, v)] := by
  unfold pupdate
  rw [if_neg ?_]
  rw [List.any_eq_true]
  rintro ⟨e, he, heq⟩
  exact h e he (by simpa using heq)

theorem portal_fold_fresh :
    ∀ (l : List (String × List Coord)) (init : List (Coord × Coord)),
      (l.flatMap (fun e => e.2)).Nodup →
      (∀ e ∈ init, ∀ c ∈ l.flatMap (fun e => e.2), e.1 ≠ c) →
      l.foldl
        (fun d e =>
          match e.2 with
          | [a, b] => pupdate (pupdate d a b) b a
          | _ => d) init
        = init ++ l.flatMap (fun e =>
            match e.2 with
            | [a, b] => [(a, b), (b, a)]
            | _ => []) := by
  intro l
  induction l with
  | nil => intro init _ _; simp
  | cons en l ih =>
    intro init hnd hdisj
    rw [List.foldl_cons, List.flatMap_cons]
    match hcase : en.2 with
    | [] =>
      rw [List.flatMap_cons, hcase] at hnd hdisj
      simp only [List.nil_append] at hnd hdisj
      exact ih init hnd hdisj
    | [a] =>
      rw [List.flatMap_cons, hcase] at hnd hdisj
      have hnd' := (List.nodup_append.mp hnd).2.1
      have hdisj' : ∀ e ∈ init, ∀ c ∈ l.flatMap (fun e => e.2), e.1 ≠ c := by
        intro e he c hc
        exact hdisj e he c (List.mem_append.mpr (Or.inr hc))
      simpa using ih init hnd' hdisj'
    | a :: b :: c :: t =>
      rw [List.flatMap_cons, hcase] at hnd hdisj
      have hnd' := (List.nodup_append.mp hnd).2.1
      have hdisj' : ∀ e ∈ init, ∀ x ∈ l.flatMap (fun e => e.2), e.1 ≠ x := by
        intro e he x hx
        exact hdisj e he x (List.mem_append.mpr (Or.inr hx))
      simpa using ih init hnd' hdisj'
    | [a, b] =>
      rw [List.flatMap_cons, hcase] at hnd hdisj
      show l.foldl
          (fun d e =>
            match e.2 with
            | [a, b] => pupdate (pupdate d a b) b a
            | _ => d)
          (pupdate (pupdate init a b) b a)
        = init ++ ([(a, b), (b, a)] ++ l.flatMap (fun e =>
            match e.2 with
            | [a, b] => ([(a, b), (b, a)] : List (Coord × Coord))
            | _ => []))
      obtain ⟨hab, hrest, hdisj2⟩ := List.nodup_append.mp hnd
      have hane : a ≠ b := by
        intro hc
        exact (List.nodup_cons.mp hab).1 (by simp [hc])
      have h1 : pupdate init a b = init ++ [(a, b)] := by
        refine pupdate_fresh ?_
        intro e he
        exact hdisj e he a (List.mem_append.mpr (Or.inl (by simp)))
      have h2 : pupdate (init ++ [(a, b)]) b a = init ++ [(a, b)] ++ [(b, a)] := by
        refine pupdate_fresh ?_
        intro e he
        rcases List.mem_append.mp he with h | h
        · exact hdisj e h b (List.mem_append.mpr (Or.inl (by simp)))
        · simp only [List.mem_singleton] at h
          subst h
          exact hane
      rw [h1, h2]
      have hdisj' : ∀ e ∈ init ++ [(a, b)] ++ [(b, a)],
          ∀ c ∈ l.flatMap (fun e => e.2), e.1 ≠ c := by
        intro e he c hc
        rcases List.mem_append.mp he with h | h
        · rcases List.mem_append.mp h with h' | h'
          · exact hdisj e h' c (List.mem_append.mpr (Or.inr hc))
          · simp only [List.mem_singleton] at h'
            subst h'
            intro hac
            exact (List.disjoint_left.mp hdisj2) (by simp) (hac ▸ hc)
        · simp only [List.mem_singleton] at h
          subst h
          intro hbc
          exact (List.disjoint_left.mp hdisj2) (by simp) (hbc ▸ hc)
      rw [ih _ hrest hdisj']
      simp [List.append_assoc]

theorem build_portal_pair_eq_writes (p : Puzzle) (h : PortalsWF p) :
    build_portal_pair p = portalWrites p := by
  unfold build_portal_pair portalWrites
  rw [portal_fold_fresh p.portals [] h.2 (by simp)]
  rfl

theorem writes_keys_gen :
    ∀ l : List (String × List Coord),
      (∀ e ∈ l, ∃ a b : Coord, e.2 = [a, b]) →
      ((l.flatMap (fun e =>
          match e.2 with
          | [a, b] => ([(a, b), (b, a)] : List (Coord × Coord))
          | _ => [])).map (fun e => e.1))
        = l.flatMap (fun e => e.2) := by
  intro l
  induction l with
  | nil => intro _; rfl
  | cons en l ih =>
    intro hall
    obtain ⟨a, b, hab⟩ := hall en (List.mem_cons_self _ _)
    rw [List.flatMap_cons, List.flatMap_cons, List.map_append,
      ih (fun e he => hall e (List.mem_cons_of_mem _ he)), hab]
    rfl

theorem portals_entries_paired {p : Puzzle} (h : PortalsWF p) :
    ∀ e ∈ p.portals, ∃ a b : Coord, e.2 = [a, b] := by
  intro e he
  have := h.1 e he
  unfold portalEntryOK at this
  match hcase : e.2 with
  | [] => rw [hcase] at this; simp at this
  | [a] => rw [hcase] at this; simp at this
  | [a, b] => exact ⟨a, b, rfl⟩
  | a :: b :: c :: t => rw [hcase] at this; simp at this

theorem writes_keys (p : Puzzle) (h : PortalsWF p) :
    (portalWrites p).map (fun e => e.1) = p.portals.flatMap (fun e => e.2) :=
  writes_keys_gen p.portals (portals_entries_paired h)

theorem find?_assoc_iff :
    ∀ (l : List (Coord × Coord)), (l.map (fun e => e.1)).Nodup → ∀ u v : Coord,
      ((l.find? (fun e => e.1 == u)).map (fun e => e.2) = some v) ↔ (u, v) ∈ l := by
  intro l
  induction l with
  | nil => intro _ u v; simp
  | cons e l ih =>
    intro hnd u v
    rw [List.map_cons] at hnd
    obtain ⟨hkey, hnd'⟩ := List.nodup_cons.mp hnd
    by_cases heu : e.1 = u
    · have hb : (e.1 == u) = true := by simp [heu]
      rw [List.find?_cons]
      simp only [hb, Option.map_some', Option.some.injEq, List.mem_cons]
      constructor
      · intro hv
        left
        rw [← heu, ← hv]
      · rintro (h | h)
        · rw [← h]
        · exfalso
          apply hkey
          rw [List.mem_map]
          exact ⟨(u, v), h, heu.symm⟩
    · have hb : (e.1 == u) = false := by simp [heu]
      rw [List.find?_cons]
      simp only [hb]
      rw [ih hnd' u v]
      constructor
      · exact fun h => List.mem_cons_of_mem _ h
      · intro h
        rcases List.mem_cons.mp h with h | h
        · exact absurd (congrArg Prod.fst h.symm) heu
        · exact h

theorem portalPair_iff_writes (p : Puzzle) (h : PortalsWF p) (u v : Coord) :
    portalPair p u = some v ↔ (u, v) ∈ portalWrites p := by
  unfold portalPair
  rw [build_portal_pair_eq_writes p h]
  exact find?_assoc_iff (portalWrites p) (by rw [writes_keys p h]; exact h.2) u v

theorem writes_entry_facts {p : Puzzle} (h : PortalsWF p) {u v : Coord}
    (hm : (u, v) ∈ portalWrites p) :
    in_bounds p u.1 u.2 = true ∧ (cellAt p u).kind = "portal" ∧
      (cellAt p v).kind = "portal" := by
  unfold portalWrites at hm
  rw [List.mem_flatMap] at hm
  obtain ⟨en, hen, hin⟩ := hm
  have hok := h.1 en hen
  unfold portalEntryOK at hok
  match hcase : en.2 with
  | [] => rw [hcase] at hok; simp at hok
  | [a] => rw [hcase] at hok; simp at hok
  | a :: b :: c :: t => rw [hcase] at hok; simp at hok
  | [a, b] =>
    rw [hcase] at hok hin
    simp only [Bool.and_eq_true, beq_iff_eq] at hok
    obtain ⟨⟨⟨hia, hib⟩, hka⟩, hkb⟩ := hok
    rcases (by simpa using hin : (u, v) = (a, b) ∨ (u, v) = (b, a)) with he | he
    · injection he with h1 h2
      subst h1; subst h2
      exact ⟨hia, hka, hkb⟩
    · injection he with h1 h2
      subst h1; subst h2
      exact ⟨hib, hkb, hka⟩

/-- C5: for well-formed portals, the edge set of the adjacency mapping built
by `build_adjacency` coincides exactly with the edge relation the
Reachability Engine's BFS traverses with an empty blocked set: 4-directional
steps between in-bounds non-wall cells plus the portal-pair edge out of each
portal cell. -/
theorem adjacency_matches_bfs (p : Puzzle) (h : PortalsWF p) (u v : Coord) :
    AdjEdge p u v ↔
      ((cellAt p u).kind ≠ "wall" ∧ in_bounds p u.1 u.2 = true ∧
        MoveStep p [] u v) := by
  unfold AdjEdge
  rw [mem_build_adjacency_iff]
  constructor
  · rintro (hbase | hport)
    · rw [alookupD_baseAdj] at hbase
      by_cases hcond : u ∈ allCoords p ∧ ((cellAt p u).kind == "wall") = false
      · rw [if_pos hcond] at hbase
        obtain ⟨hnb, hvw⟩ := List.mem_filter.mp hbase
        refine ⟨by simpa using hcond.2, ?_, ?_⟩
        · rw [in_bounds_iff]
          exact (mem_allCoords p u).mp hcond.1
        · refine ⟨Or.inl hnb, ?_⟩
          unfold passable
          rw [Bool.and_eq_true]
          exact ⟨by simpa using hvw, by simp⟩
      · rw [if_neg hcond] at hbase
        exact absurd hbase (List.not_mem_nil v)
    · obtain ⟨hib, hku, hkv⟩ := writes_entry_facts h hport
      refine ⟨by rw [hku]; simp, hib, ?_⟩
      refine ⟨Or.inr ⟨hku, (portalPair_iff_writes p h u v).mpr hport⟩, ?_⟩
      unfold passable
      rw [Bool.and_eq_true]
      exact ⟨by simp [hkv], by simp⟩
  · rintro ⟨hwall, hib, hmv, hpass⟩
    rcases hmv with hnb | ⟨hku, hpp⟩
    · left
      rw [alookupD_baseAdj,
        if_pos ⟨(mem_allCoords p u).mpr (in_bounds_iff.mp hib), by simpa using hwall⟩]
      refine List.mem_filter.mpr ⟨hnb, ?_⟩
      unfold passable at hpass
      rw [Bool.and_eq_true] at hpass
      exact hpass.1
    · right
      exact (portalPair_iff_writes p h u v).mp hpp

/-- Witness for C5 at a concrete puzzle, blocked set and edge. -/
theorem adjacency_matches_bfs_witness :
    AdjEdge pzPortal (1, 1) (0, 1) ↔
      ((cellAt pzPortal (1, 1)).kind ≠ "wall" ∧
        in_bounds pzPortal 1 1 = true ∧ MoveStep pzPortal [] (1, 1) (0, 1)) :=
  adjacency_matches_bfs pzPortal ⟨by decide, by decide⟩ (1, 1) (0, 1)

/-! ## Correctness of `find_escape_path` (C2): distance layers -/

theorem reachN_mono {p : Puzzle} {blocks : List Coord} :
    ∀ {m n : Nat}, m ≤ n → ∀ {v : Coord}, ReachN p blocks m v → ReachN p blocks n v := by
  intro m n h
  induction n with
  | zero =>
    intro v hv
    have hm : m = 0 := Nat.le_zero.mp h
    exact hm ▸ hv
  | succ n ih =>
    intro v hv
    by_cases hm : m = n + 1
    · exact hm ▸ hv
    · exact Or.inl (ih (by omega) hv)

theorem reaches_iff_reachN {p : Puzzle} {blocks : List Coord} {v : Coord} :
    Reaches p blocks v ↔ ∃ n, ReachN p blocks n v := by
  constructor
  · intro h
    induction h with
    | start => exact ⟨0, rfl⟩
    | step _ hmv ih =>
      obtain ⟨n, hn⟩ := ih
      exact ⟨n + 1, Or.inr ⟨_, hn, hmv⟩⟩
  · rintro ⟨n, hn⟩
    induction n generalizing v with
    | zero =>
      have hv : v = p.horse := hn
      exact hv ▸ Reaches.start
    | succ n ih =>
      replace hn : ReachN p blocks n v ∨
          ∃ u, ReachN p blocks n u ∧ MoveStep p blocks u v := hn
      rcases hn with h | ⟨u, hu, hm⟩
      · exact ih h
      · exact Reaches.step (ih hu) hm

theorem path_reachN {p : Puzzle} {blocks : List Coord} :
    ∀ (l : List Coord) (u w : Coord) (n : Nat),
      l.head? = some u → List.Chain' (MoveStep p blocks) l → l.getLast? = some w →
      ReachN p blocks n u → ReachN p blocks (n + (l.length - 1)) w := by
  intro l
  induction l with
  | nil => intro u w n h _ _ _; simp at h
  | cons a l ih =>
    intro u w n hh hc hl hn
    simp only [List.head?_cons, Option.some.injEq] at hh
    subst hh
    cases l with
    | nil =>
      rw [List.getLast?_singleton] at hl
      have hw : a = w := Option.some.inj hl
      subst hw
      simpa using hn
    | cons b l' =>
      have hstep : MoveStep p blocks a b := (List.chain'_cons.mp hc).1
      have hc' : List.Chain' (MoveStep p blocks) (b :: l') := (List.chain'_cons.mp hc).2
      have hl' : (b :: l').getLast? = some w := by
        rw [List.getLast?_cons_cons] at hl
        exact hl
      have hb : ReachN p blocks (n + 1) b := Or.inr ⟨a, hn, hstep⟩
      have hres := ih b w (n + 1) rfl hc' hl' hb
      have harith : n + 1 + ((b :: l').length - 1) = n + ((a :: b :: l').length - 1) := by
        simp only [List.length_cons]
        omega
      exact harith ▸ hres

theorem escape_path_reachN {p : Puzzle} {blocks : List Coord} {l : List Coord} {w : Coord}
    (hh : l.head? = some p.horse) (hc : List.Chain' (MoveStep p blocks) l)
    (hl : l.getLast? = some w) : ReachN p blocks (l.length - 1) w := by
  have := path_reachN l p.horse w 0 hh hc hl rfl
  simpa using this

/-! ### Lookups in the predecessor map -/

theorem plookup_append_left {prev ext : List (Coord × Option Coord)} {u : Coord}
    (h : u ∈ prev.map (fun e => e.1)) : plookup (prev ++ ext) u = plookup prev u := by
  unfold plookup
  rw [List.find?_append]
  have hsome : (prev.find? (fun e => e.1 == u)).isSome = true := by
    rw [List.find?_isSome]
    rw [List.mem_map] at h
    obtain ⟨e, he, he1⟩ := h
    exact ⟨e, he, by simp [he1]⟩
  cases hfind : prev.find? (fun e => e.1 == u) with
  | none => rw [hfind] at hsome; simp at hsome
  | some e => rfl

theorem plookup_append_right {prev ext : List (Coord × Option Coord)} {u : Coord}
    (h : u ∉ prev.map (fun e => e.1)) : plookup (prev ++ ext) u = plookup ext u := by
  unfold plookup
  rw [List.find?_append]
  have hnone : prev.find? (fun e => e.1 == u) = none := by
    rw [List.find?_eq_none]
    intro e he
    simp only [beq_iff_eq]
    intro hc
    exact h (List.mem_map.mpr ⟨e, he, hc⟩)
  rw [hnone]
  rfl

theorem plookup_mapPair {u : Coord} :
    ∀ (new : List Coord) (w : Coord), w ∈ new →
      plookup (new.map (fun x => (x, some u))) w = some (some u) := by
  intro new
  induction new with
  | nil => intro w h; simp at h
  | cons a new ih =>
    intro w hw
    rw [List.map_cons]
    by_cases haw : a = w
    · have hb : (((a, some u) : Coord × Option Coord).1 == w) = true := by simp [haw]
      unfold plookup
      rw [List.find?_cons]
      simp only [hb]
      rfl
    · have hb : (((a, some u) : Coord × Option Coord).1 == w) = false := by simp [haw]
      unfold plookup at ih ⊢
      rw [List.find?_cons]
      simp only [hb]
      exact ih w ((List.mem_cons.mp hw).resolve_left (fun hc => haw hc.symm))

theorem keys_append_mapPair (prev : List (Coord × Option Coord)) (new : List Coord)
    (u : Coord) :
    (prev ++ new.map (fun w => (w, some u))).map (fun e => e.1)
      = prev.map (fun e => e.1) ++ new := by
  rw [List.map_append, List.map_map]
  congr 1
  exact List.map_id new

/-! ### Path reconstruction follows the predecessor chain -/

theorem chainBack_path {p : Puzzle} {blocks : List Coord}
    {prev : List (Coord × Option Coord)} {D : Coord → Nat}
    (hg : GoodPrev p blocks prev D) :
    ∀ (n : Nat) (v : Coord), v ∈ prev.map (fun e => e.1) → D v < n →
      (chainBack prev n v).reverse.head? = some p.horse ∧
      List.Chain' (MoveStep p blocks) (chainBack prev n v).reverse ∧
      (chainBack prev n v).reverse.getLast? = some v ∧
      (chainBack prev n v).length = D v + 1 := by
  intro n
  induction n with
  | zero => intro v _ h; omega
  | succ n ih =>
    intro v hv hd
    by_cases hvh : v = p.horse
    · subst hvh
      have hcb : chainBack prev (n + 1) p.horse = [p.horse] := by
        show (p.horse :: (match plookup prev p.horse with
              | some (some x) => chainBack prev n x
              | _ => [])) = [p.horse]
        rw [hg.horse_lookup]
      rw [hcb]
      exact ⟨by simp, by simp, by simp, by simp [hg.horse_D]⟩
    · obtain ⟨u, hlook, humem, hstep, hDv⟩ := hg.parent v hv hvh
      have hDu : D u < n := by omega
      obtain ⟨ih1, ih2, ih3, ih4⟩ := ih u humem hDu
      have hcb : chainBack prev (n + 1) v = v :: chainBack prev n u := by
        show (v :: (match plookup prev v with
              | some (some x) => chainBack prev n x
              | _ => [])) = v :: chainBack prev n u
        rw [hlook]
      rw [hcb, List.reverse_cons]
      refine ⟨?_, ?_, ?_, ?_⟩
      · rw [List.head?_append, ih1]
        rfl
      · rw [List.chain'_append]
        refine ⟨ih2, List.chain'_singleton _, ?_⟩
        intro x hx y hy
        rw [ih3] at hx
        have hx' : u = x := by simpa using hx
        have hy' : v = y := by simpa using hy
        rw [← hx', ← hy']
        exact hstep
      · rw [List.getLast?_append]
        simp
      · rw [List.length_cons, ih4]
        omega

theorem reconstructPath_spec {p : Puzzle} {blocks : List Coord}
    {prev : List (Coord × Option Coord)} {D : Coord → Nat}
    (hg : GoodPrev p blocks prev D) {u : Coord} (hu : u ∈ prev.map (fun e => e.1)) :
    PathTo p blocks u (reconstructPath prev u) ∧
      (reconstructPath prev u).length = D u + 1 := by
  have hd : D u < prev.length + 1 := by
    have := hg.depth_lt u hu
    omega
  obtain ⟨h1, h2, h3, h4⟩ := chainBack_path hg (prev.length + 1) u hu hd
  refine ⟨⟨h1, h2, h3⟩, ?_⟩
  show (chainBack prev (prev.length + 1) u).reverse.length = D u + 1
  rw [List.length_reverse]
  exact h4

/-! ### The escape-BFS expansion step -/

theorem expandE_fold (p : Puzzle) (blocks : List Coord) (u : Coord) :
    ∀ (cands : List Coord) (prev : List (Coord × Option Coord)) (q : List Coord),
      ∃ new : List Coord,
        cands.foldl
          (fun pq v =>
            if passable p blocks v && !(pq.1.any (fun e => e.1 == v)) then
              (pq.1 ++ [(v, some u)], pq.2 ++ [v])
            else pq) (prev, q)
          = (prev ++ new.map (fun w => (w, some u)), q ++ new) ∧
        new.Nodup ∧
        (∀ w ∈ new, w ∈ cands ∧ passable p blocks w = true ∧
          w ∉ prev.map (fun e => e.1)) ∧
        (∀ w ∈ cands, passable p blocks w = true →
          w ∈ prev.map (fun e => e.1) ∨ w ∈ new) := by
  intro cands
  induction cands with
  | nil => intro prev q; exact ⟨[], by simp, List.nodup_nil, by simp, by simp⟩
  | cons c cs ih =>
    intro prev q
    rw [List.foldl_cons]
    by_cases hpass : passable p blocks c = true
    case neg =>
      rw [if_neg (by simp [hpass])]
      obtain ⟨new', h1, h2, h3, h4⟩ := ih prev q
      refine ⟨new', h1, h2,
        fun w hw => ⟨List.mem_cons_of_mem _ (h3 w hw).1, (h3 w hw).2⟩, ?_⟩
      intro w hw hpw
      rcases List.mem_cons.mp hw with rfl | hw
      · exact absurd hpw hpass
      · exact h4 w hw hpw
    by_cases hcm : c ∈ prev.map (fun e => e.1)
    case pos =>
      have hany : (prev.any (fun e => e.1 == c)) = true := anyKey_iff.mpr hcm
      rw [if_neg (by simp [hany])]
      obtain ⟨new', h1, h2, h3, h4⟩ := ih prev q
      refine ⟨new', h1, h2,
        fun w hw => ⟨List.mem_cons_of_mem _ (h3 w hw).1, (h3 w hw).2⟩, ?_⟩
      intro w hw hpw
      rcases List.mem_cons.mp hw with rfl | hw
      · exact Or.inl hcm
      · exact h4 w hw hpw
    case neg =>
      have hany : (prev.any (fun e => e.1 == c)) = false := by
        cases hb : prev.any (fun e => e.1 == c) with
        | false => rfl
        | true => exact absurd (anyKey_iff.mp hb) hcm
      rw [if_pos (by rw [Bool.and_eq_true]
                     exact ⟨hpass, by rw [hany]; rfl⟩)]
      obtain ⟨new', h1, h2, h3, h4⟩ := ih (prev ++ [(c, some u)]) (q ++ [c])
      have hkeys : (prev ++ [(c, some u)]).map (fun e => e.1)
          = prev.map (fun e => e.1) ++ [c] := by
        rw [List.map_append]
        rfl
      refine ⟨c :: new', ?_, ?_, ?_, ?_⟩
      · rw [h1, List.map_cons, List.append_cons q c new',
          List.append_cons prev (c, some u) (new'.map (fun w => (w, some u)))]
      · refine List.nodup_cons.mpr ⟨?_, h2⟩
        intro hmem
        have := (h3 c hmem).2.2
        rw [hkeys] at this
        exact this (List.mem_append.mpr (Or.inr (by simp)))
      · intro w hw
        rcases List.mem_cons.mp hw with rfl | hw
        · exact ⟨List.mem_cons_self _ _, hpass, hcm⟩
        · obtain ⟨hw1, hw2, hw3⟩ := h3 w hw
          rw [hkeys] at hw3
          exact ⟨List.mem_cons_of_mem _ hw1, hw2,
            fun hmem => hw3 (List.mem_append.mpr (Or.inl hmem))⟩
      · intro w hw hpw
        rcases List.mem_cons.mp hw with rfl | hw
        · exact Or.inr (List.mem_cons_self _ _)
        · rcases h4 w hw hpw with h | h
          · rw [hkeys] at h
            rcases List.mem_append.mp h with h | h
            · exact Or.inl h
            · exact Or.inr (by simp at h; simp [h])
          · exact Or.inr (List.mem_cons_of_mem _ h)

theorem expandE_spec (p : Puzzle) (blocks : List Coord) (u : Coord)
    (prev : List (Coord × Option Coord)) (q : List Coord) :
    ∃ new : List Coord,
      expandE p blocks u prev q = (prev ++ new.map (fun w => (w, some u)), q ++ new) ∧
      new.Nodup ∧
      (∀ w ∈ new, MoveStep p blocks u w ∧ w ∉ prev.map (fun e => e.1) ∧ w ∈ uniAll p) ∧
      (∀ w, MoveStep p blocks u w → w ∈ prev.map (fun e => e.1) ∨ w ∈ new) := by
  obtain ⟨new, h1, h2, h3, h4⟩ := expandE_fold p blocks u (succCands p u) prev q
  refine ⟨new, h1, h2, ?_, ?_⟩
  · intro w hw
    obtain ⟨hw1, hw2, hw3⟩ := h3 w hw
    exact ⟨moveStep_iff.mpr ⟨hw1, hw2⟩, hw3, succCands_sub_uni hw1⟩
  · intro w hw
    obtain ⟨hw1, hw2⟩ := moveStep_iff.mp hw
    exact h4 w hw1 hw2

/-! ### The escape-BFS loop invariant -/

theorem escAux_cons (p : Puzzle) (blocks : List Coord) (fuel : Nat) (u : Coord)
    (q : List Coord) (prev : List (Coord × Option Coord)) :
    escAux p blocks (fuel + 1) (u :: q) prev
      = if is_boundary p u && passable p blocks u then some (reconstructPath prev u)
        else escAux p blocks fuel (expandE p blocks u prev q).2
          (expandE p blocks u prev q).1 := rfl

theorem escInv_terminal {p : Puzzle} {blocks : List Coord}
    {prev : List (Coord × Option Coord)} {D : Coord → Nat} {d : Nat}
    (hinv : EscInv p blocks [] [] prev D d) :
    ∀ w, Reaches p blocks w →
      ¬(is_boundary p w = true ∧ passable p blocks w = true) := by
  intro w hw
  have hmem : w ∈ prev.map (fun e => e.1) :=
    closed_complete hinv.horse_mem
      (fun x hx v hv => hinv.closedP x hx (by simp) (by simp) v hv) w hw
  exact hinv.noEscP w hmem (by simp) (by simp)

theorem escInv_shift {p : Puzzle} {blocks : List Coord} {qb : List Coord}
    {prev : List (Coord × Option Coord)} {D : Coord → Nat} {d : Nat}
    (hinv : EscInv p blocks [] qb prev D d) :
    EscInv p blocks qb [] prev D (d + 1) := by
  refine ⟨hinv.toGoodPrev, hinv.qb_mem, ?_, ?_, ?_, ?_⟩
  · intro v hv
    exact absurd hv (List.not_mem_nil v)
  · intro m hm w hw
    by_cases hmd : m ≤ d
    · exact hinv.covered m hmd w hw
    · have hm1 : m = d + 1 := by omega
      subst hm1
      replace hw : ReachN p blocks d w ∨
          ∃ x, ReachN p blocks d x ∧ MoveStep p blocks x w := hw
      rcases hw with hw | ⟨x, hx, hstep⟩
      · exact hinv.covered d (le_refl d) w hw
      · have hxmem := hinv.covered d (le_refl d) x hx
        have hDx : D x ≤ d := hinv.optD x hxmem d hx
        have hxnq : x ∉ qb := by
          intro hc
          have := (hinv.qb_mem x hc).2
          omega
        exact hinv.closedP x hxmem (by simp) hxnq w hstep
  · intro x hx hxqa _
    exact hinv.closedP x hx (by simp) hxqa
  · intro x hx hxqa _
    exact hinv.noEscP x hx (by simp) hxqa

/-- One dequeue of `find_escape_path`'s loop preserves the invariant (or
returns a provably shortest escape path). -/
theorem escStep (p : Puzzle) (blocks : List Coord) (fuel : Nat)
    (IH : ∀ (qa qb : List Coord) (prev : List (Coord × Option Coord))
      (D : Coord → Nat) (d : Nat),
      EscInv p blocks qa qb prev D d → (qa = [] → qb = []) →
      muE p (qa ++ qb) prev ≤ fuel →
      EscPost p blocks (escAux p blocks fuel (qa ++ qb) prev))
    (u : Coord) (qa' qb : List Coord) (prev : List (Coord × Option Coord))
    (D : Coord → Nat) (d : Nat)
    (hinv : EscInv p blocks (u :: qa') qb prev D d)
    (hmu : muE p ((u :: qa') ++ qb) prev ≤ fuel + 1) :
    EscPost p blocks (escAux p blocks (fuel + 1) ((u :: qa') ++ qb) prev) := by
  rw [List.cons_append, escAux_cons]
  have humem : u ∈ prev.map (fun e => e.1) :=
    (hinv.qa_mem u (List.mem_cons_self _ _)).1
  have hDu : D u = d := (hinv.qa_mem u (List.mem_cons_self _ _)).2
  by_cases hesc : (is_boundary p u && passable p blocks u) = true
  case pos =>
    rw [if_pos hesc]
    rw [Bool.and_eq_true] at hesc
    obtain ⟨hbd, hpass⟩ := hesc
    obtain ⟨hpath, hlen⟩ := reconstructPath_spec hinv.toGoodPrev humem
    refine ⟨⟨hpath.1, hpath.2.1, u, hpath.2.2, hbd, hpass⟩, ?_⟩
    intro l' hl'
    obtain ⟨hh', hc', w, hlast', hbd', hpass'⟩ := hl'
    have hlen1 : 1 ≤ l'.length := by
      cases l' with
      | nil => simp at hh'
      | cons a t => simp [List.length_cons]
    have hrw : ReachN p blocks (l'.length - 1) w := escape_path_reachN hh' hc' hlast'
    rw [hlen]
    by_contra hlt
    push_neg at hlt
    have hmd : l'.length - 1 < d := by omega
    have hwmem := hinv.covered (l'.length - 1) (by omega) w hrw
    have hDw : D w ≤ l'.length - 1 := hinv.optD w hwmem _ hrw
    have hwqa : w ∉ u :: qa' := by
      intro hc
      have := (hinv.qa_mem w hc).2
      omega
    have hwqb : w ∉ qb := by
      intro hc
      have := (hinv.qb_mem w hc).2
      omega
    exact hinv.noEscP w hwmem hwqa hwqb ⟨hbd', hpass'⟩
  case neg =>
    rw [if_neg hesc]
    obtain ⟨new, he1, he2, he3, he4⟩ := expandE_spec p blocks u prev (qa' ++ qb)
    rw [he1]
    have hkeys : (prev ++ new.map (fun w => (w, some u))).map (fun e => e.1)
        = prev.map (fun e => e.1) ++ new := keys_append_mapPair prev new u
    have hfreshnew : ∀ x ∈ new, x ∉ prev.map (fun e => e.1) := fun x hx => (he3 x hx).2.1
    have hD'new : ∀ w ∈ new, (if w ∈ new then d + 1 else D w) = d + 1 :=
      fun w hw => if_pos hw
    have hD'old : ∀ v ∈ prev.map (fun e => e.1),
        (if v ∈ new then d + 1 else D v) = D v :=
      fun v hv => if_neg (fun hc => hfreshnew v hc hv)
    have hinv' : EscInv p blocks qa' (qb ++ new)
        (prev ++ new.map (fun w => (w, some u)))
        (fun x => if x ∈ new then d + 1 else D x) d := by
      refine ⟨⟨?_, ?_, ?_, ?_, ?_, ?_, ?_, ?_⟩, ?_, ?_, ?_, ?_, ?_⟩
      · rw [hkeys]
        exact List.nodup_append.mpr ⟨hinv.nodupKeys, he2,
          fun a ha hb => hfreshnew a hb ha⟩
      · rw [hkeys]
        exact List.mem_append.mpr (Or.inl hinv.horse_mem)
      · rw [plookup_append_left hinv.horse_mem]
        exact hinv.horse_lookup
      · rw [hD'old p.horse hinv.horse_mem]
        exact hinv.horse_D
      · intro v hv hvh
        rw [hkeys] at hv
        rcases List.mem_append.mp hv with hvold | hvnew
        · obtain ⟨w, hw1, hw2, hw3, hw4⟩ := hinv.parent v hvold hvh
          refine ⟨w, ?_, ?_, hw3, ?_⟩
          · rw [plookup_append_left hvold]
            exact hw1
          · rw [hkeys]
            exact List.mem_append.mpr (Or.inl hw2)
          · rw [hD'old v hvold, hD'old w hw2, hw4]
        · refine ⟨u, ?_, ?_, (he3 v hvnew).1, ?_⟩
          · rw [plookup_append_right (he3 v hvnew).2.1]
            exact plookup_mapPair new v hvnew
          · rw [hkeys]
            exact List.mem_append.mpr (Or.inl humem)
          · rw [hD'new v hvnew, hD'old u humem, hDu]
      · intro v hv
        rw [hkeys] at hv
        rcases List.mem_append.mp hv with hvold | hvnew
        · rw [hD'old v hvold]
          exact hinv.reachD v hvold
        · rw [hD'new v hvnew]
          exact Or.inr ⟨u, hDu ▸ hinv.reachD u humem, (he3 v hvnew).1⟩
      · intro v hv m hm
        rw [hkeys] at hv
        rcases List.mem_append.mp hv with hvold | hvnew
        · rw [hD'old v hvold]
          exact hinv.optD v hvold m hm
        · rw [hD'new v hvnew]
          by_contra hlt
          push_neg at hlt
          exact (he3 v hvnew).2.1 (hinv.covered m (by omega) v hm)
      · intro v hv
        rw [hkeys] at hv
        have hlen : (prev ++ new.map (fun w => (w, some u))).length
            = prev.length + new.length := by simp
        rcases List.mem_append.mp hv with hvold | hvnew
        · rw [hD'old v hvold]
          have := hinv.depth_lt v hvold
          omega
        · rw [hD'new v hvnew]
          have hd1 : D u < prev.length := hinv.depth_lt u humem
          have hnew1 : 0 < new.length := List.length_pos.mpr (by
            intro hc
            rw [hc] at hvnew
            exact List.not_mem_nil v hvnew)
          omega
      · intro v hv
        have h := hinv.qa_mem v (List.mem_cons_of_mem _ hv)
        refine ⟨by rw [hkeys]; exact List.mem_append.mpr (Or.inl h.1), ?_⟩
        rw [hD'old v h.1]
        exact h.2
      · intro v hv
        rcases List.mem_append.mp hv with hvq | hvn
        · have h := hinv.qb_mem v hvq
          exact ⟨by rw [hkeys]; exact List.mem_append.mpr (Or.inl h.1),
            by rw [hD'old v h.1]; exact h.2⟩
        · exact ⟨by rw [hkeys]; exact List.mem_append.mpr (Or.inr hvn),
            hD'new v hvn⟩
      · intro m hm w hw
        rw [hkeys]
        exact List.mem_append.mpr (Or.inl (hinv.covered m hm w hw))
      · intro x hx hxqa hxqb v hv
        rw [hkeys] at hx
        rw [hkeys]
        have hxnew : x ∉ new := fun hc => hxqb (List.mem_append.mpr (Or.inr hc))
        have hxold : x ∈ prev.map (fun e => e.1) :=
          (List.mem_append.mp hx).resolve_right hxnew
        by_cases hxu : x = u
        · subst hxu
          rcases he4 v hv with h | h
          · exact List.mem_append.mpr (Or.inl h)
          · exact List.mem_append.mpr (Or.inr h)
        · have hxq : x ∉ u :: qa' := by
            intro hc
            rcases List.mem_cons.mp hc with hc | hc
            · exact hxu hc
            · exact hxqa hc
          exact List.mem_append.mpr (Or.inl (hinv.closedP x hxold hxq
            (fun hc => hxqb (List.mem_append.mpr (Or.inl hc))) v hv))
      · intro x hx hxqa hxqb
        rw [hkeys] at hx
        have hxnew : x ∉ new := fun hc => hxqb (List.mem_append.mpr (Or.inr hc))
        have hxold : x ∈ prev.map (fun e => e.1) :=
          (List.mem_append.mp hx).resolve_right hxnew
        by_cases hxu : x = u
        · subst hxu
          intro hc
          apply hesc
          rw [Bool.and_eq_true]
          exact hc
        · have hxq : x ∉ u :: qa' := by
            intro hc
            rcases List.mem_cons.mp hc with hc | hc
            · exact hxu hc
            · exact hxqa hc
          exact hinv.noEscP x hxold hxq
            (fun hc => hxqb (List.mem_append.mpr (Or.inl hc)))
    have hmu' : muE p (qa' ++ (qb ++ new)) (prev ++ new.map (fun w => (w, some u)))
        ≤ fuel := by
      have hdrop := mu_drop (uniAll p) new (prev.map (fun e => e.1)) he2
        (fun w hw => ⟨(he3 w hw).2.2, (he3 w hw).2.1⟩)
      unfold muE at hmu ⊢
      rw [hkeys]
      simp only [List.length_append, List.length_cons] at hmu hdrop ⊢
      omega
    by_cases hqa' : qa' = []
    · subst hqa'
      by_cases hqn : qb ++ new = []
      · have hres := IH [] (qb ++ new)
          (prev ++ new.map (fun w => (w, some u)))
          (fun x => if x ∈ new then d + 1 else D x) d hinv' (fun _ => hqn)
          (by simpa using hmu')
        simpa using hres
      · have hres := IH (qb ++ new) []
          (prev ++ new.map (fun w => (w, some u)))
          (fun x => if x ∈ new then d + 1 else D x) (d + 1) (escInv_shift hinv')
          (fun hc => absurd hc hqn) (by simpa using hmu')
        simpa using hres
    · have hres := IH qa' (qb ++ new)
        (prev ++ new.map (fun w => (w, some u)))
        (fun x => if x ∈ new then d + 1 else D x) d hinv'
        (fun hc => absurd hc hqa') (by simpa using hmu')
      simpa using hres

theorem escAux_post (p : Puzzle) (blocks : List Coord) :
    ∀ (fuel : Nat) (qa qb : List Coord) (prev : List (Coord × Option Coord))
      (D : Coord → Nat) (d : Nat),
      EscInv p blocks qa qb prev D d →
      (qa = [] → qb = []) →
      muE p (qa ++ qb) prev ≤ fuel →
      EscPost p blocks (escAux p blocks fuel (qa ++ qb) prev) := by
  intro fuel
  induction fuel with
  | zero =>
    intro qa qb prev D d hinv _ hmu
    have hq : qa ++ qb = [] := by
      cases hq : qa ++ qb with
      | nil => rfl
      | cons a l =>
        unfold muE at hmu
        rw [hq] at hmu
        simp [List.length_cons] at hmu
    obtain ⟨hqa, hqb⟩ := List.append_eq_nil.mp hq
    subst hqa; subst hqb
    exact escInv_terminal hinv
  | succ fuel ih =>
    intro qa qb prev D d hinv hside hmu
    cases qa with
    | cons u qa' => exact escStep p blocks fuel ih u qa' qb prev D d hinv hmu
    | nil =>
      cases qb with
      | nil => exact escInv_terminal hinv
      | cons b qb' =>
        have hres := escStep p blocks fuel ih b qb' [] prev D (d + 1)
          (by simpa using escInv_shift hinv) (by simpa using hmu)
        simpa using hres

/-- C2: `find_escape_path` returns `none` exactly when no boundary,
non-wall, non-blocked coordinate is reachable from the horse; otherwise it
returns a sequence starting at the horse's coordinate, ending at a boundary
non-wall non-blocked coordinate, whose consecutive elements are joined by
single moves through traversable coordinates, of minimal length among all
such horse-to-boundary paths. -/
theorem find_escape_path_correct (p : Puzzle) (blocks : List Coord) :
    (find_escape_path p blocks = none ↔
      ¬ ∃ w, Reaches p blocks w ∧ is_boundary p w = true ∧
        passable p blocks w = true) ∧
    (∀ l, find_escape_path p blocks = some l →
      IsEscapePath p blocks l ∧
        ∀ l', IsEscapePath p blocks l' → l.length ≤ l'.length) := by
  have hinit : EscInv p blocks [p.horse] [] [(p.horse, none)] (fun _ => 0) 0 := by
    refine ⟨⟨?_, ?_, ?_, rfl, ?_, ?_, ?_, ?_⟩, ?_, ?_, ?_, ?_, ?_⟩
    · simp
    · simp
    · have hb : (((p.horse, none) : Coord × Option Coord).1 == p.horse) = true := by simp
      unfold plookup
      rw [List.find?_cons]
      simp only [hb]
      rfl
    · intro v hv hvh
      simp only [List.map_cons, List.map_nil, List.mem_singleton] at hv
      exact absurd hv hvh
    · intro v hv
      simp only [List.map_cons, List.map_nil, List.mem_singleton] at hv
      exact hv ▸ (rfl : ReachN p blocks 0 p.horse)
    · intro v _ m _
      exact Nat.zero_le m
    · intro v _
      simp
    · intro v hv
      simp only [List.mem_singleton] at hv
      subst hv
      exact ⟨by simp, rfl⟩
    · intro v hv
      exact absurd hv (List.not_mem_nil v)
    · intro m hm w hw
      have hm0 : m = 0 := Nat.le_zero.mp hm
      subst hm0
      have hwh : w = p.horse := hw
      simp [hwh]
    · intro x hx hxqa _
      simp only [List.map_cons, List.map_nil, List.mem_singleton] at hx
      exact absurd (by simp [hx]) hxqa
    · intro x hx hxqa _
      simp only [List.map_cons, List.map_nil, List.mem_singleton] at hx
      exact absurd (by simp [hx]) hxqa
  have hmu0 : muE p ([p.horse] ++ []) [(p.horse, none)] ≤ fuelFor p := by
    unfold muE fuelFor
    have := List.length_filter_le
      (fun x => decide (¬ x ∈ ([(p.horse, none)] : List (Coord × Option Coord)).map
        (fun e => e.1))) (uniAll p)
    simp only [List.append_nil, List.length_cons, List.length_nil] at *
    omega
  have hpost := escAux_post p blocks (fuelFor p) [p.horse] [] [(p.horse, none)]
    (fun _ => 0) 0 hinit (fun hc => by simp at hc) hmu0
  have hpost' : EscPost p blocks (find_escape_path p blocks) := by
    show EscPost p blocks (escAux p blocks (fuelFor p) [p.horse] [(p.horse, none)])
    simpa using hpost
  constructor
  · constructor
    · intro hnone
      rw [hnone] at hpost'
      rintro ⟨w, hw, hbd, hpass⟩
      exact hpost' w hw ⟨hbd, hpass⟩
    · intro hno
      cases hres : find_escape_path p blocks with
      | none => rfl
      | some l =>
        rw [hres] at hpost'
        obtain ⟨⟨hh, hc, w, hlast, hbd, hpass⟩, _⟩ := hpost'
        exfalso
        apply hno
        refine ⟨w, ?_, hbd, hpass⟩
        exact reaches_iff_reachN.mpr ⟨l.length - 1, escape_path_reachN hh hc hlast⟩
  · intro l hl
    rw [hl] at hpost'
    exact hpost'

/-- Witness for C2 on the open 3×3 puzzle: the shortest escape path found is
`[(1,1), (0,1)]`. -/
theorem find_escape_path_correct_witness :
    find_escape_path pzOpen [] = some [(1, 1), (0, 1)] ∧
      IsEscapePath pzOpen [] [(1, 1), (0, 1)] ∧
      ([(1, 1), (0, 1)] : List Coord).length ≤ ([(1, 1), (0, 1)] : List Coord).length := by
  have h := (find_escape_path_correct pzOpen []).2 [(1, 1), (0, 1)] (by decide)
  exact ⟨by decide, h.1, h.2 [(1, 1), (0, 1)] h.1⟩

end HorseMaze
